import Mathlib

/-!
Shallow embedding of the documentation-MCP retrieval core
(`src/rag/chunker.py`, `src/rag/sqlite_store.py`, `src/rag/query_expander.py`,
`src/rag/search.py`) together with theorems settling the frozen claims.

Modelling conventions:
* Python strings are Lean `String`s (sequences of unicode scalar values, which
  is exactly Python's `str`); byte-level encodings never matter for the claims.
* Python floats are modelled as exact rationals `ℚ` (the constants involved,
  `1.0`, `1.2`, `2.0`, are treated as the rationals they denote).
* `hashlib.sha256(x).hexdigest()` is abstracted by the injective-in-practice
  identity on the hashed text `x`: document identity and deduplication are
  preserved exactly (a SHA-256 collision is the only divergence).
* SQL tables are association lists keyed by the primary key; SQL `SELECT`
  result sets that depend on external ranking machinery (sqlite-vec distance,
  FTS5/BM25) enter the model as explicit list parameters.
-/

set_option autoImplicit false

namespace DocMCP

/-! ### Python string primitives -/

/-- Python's whitespace for `str.strip` / `str.split` / `\s` (ASCII part). -/
def isPyWs (c : Char) : Bool :=
  c = ' ' || c = '\t' || c = '\n' || c = '\r' || c = '\x0b' || c = '\x0c'

/-- `str.strip()` on a character list. -/
def pyStripList (l : List Char) : List Char :=
  ((l.dropWhile isPyWs).reverse.dropWhile isPyWs).reverse

/-- Python `str.strip()`. -/
def pyStrip (s : String) : String :=
  String.mk (pyStripList s.data)

/-- Helper for `pySplitWs`: single pass with the current word accumulated in
reverse. -/
def pySplitWsAux (cur : List Char) : List Char → List (List Char)
  | [] => if cur = [] then [] else [cur.reverse]
  | c :: rest =>
    if isPyWs c then
      if cur = [] then pySplitWsAux [] rest
      else cur.reverse :: pySplitWsAux [] rest
    else pySplitWsAux (c :: cur) rest

/-- Python `str.split()` (split on whitespace runs, no empty pieces). -/
def pySplitWs (l : List Char) : List (List Char) :=
  pySplitWsAux [] l

/-- Lowercase a string character-wise (Python `str.lower`, ASCII fragment). -/
def lowerStr (s : String) : String :=
  String.mk (s.data.map Char.toLower)

/-- Python regex `\w` (ASCII fragment: alphanumeric or underscore). -/
def isWordChar (c : Char) : Bool :=
  c.isAlphanum || c = '_'

/-- Substring test (Python `needle in hay` on strings). -/
def listContainsSub (hay pat : List Char) : Bool :=
  match hay with
  | [] => pat.isEmpty
  | _ :: rest => pat.isPrefixOf hay || listContainsSub rest pat

/-! ### Association-list dictionaries

Python `dict` assignment keeps the insertion position of an existing key and
appends new keys; SQL `UPDATE ... WHERE id = ?` / `INSERT` behaves the same on
a table read in rowid order.  `dictSet` models both. -/

/-- Set a key, replacing in place when present, appending when absent. -/
def dictSet {β : Type} (m : List (String × β)) (k : String) (v : β) :
    List (String × β) :=
  if (m.find? (fun p => p.1 = k)).isSome then
    m.map (fun p => if p.1 = k then (k, v) else p)
  else
    m ++ [(k, v)]

/-- Look up a key (first match). -/
def dictFind {β : Type} (m : List (String × β)) (k : String) : Option β :=
  (m.find? (fun p => p.1 = k)).map (fun p => p.2)

/-- Update the value at a key in place (no-op when absent). -/
def dictModify {β : Type} (m : List (String × β)) (k : String) (f : β → β) :
    List (String × β) :=
  m.map (fun p => if p.1 = k then (k, f p.2) else p)

/-- Stable insertion for descending sort by a rational key: an element goes
in front of the first strictly smaller key, after all keys `≥` its own. -/
def insertByKeyDesc {α : Type} (key : α → ℚ) (x : α) : List α → List α
  | [] => [x]
  | y :: ys => if key y ≤ key x then x :: y :: ys else y :: insertByKeyDesc key x ys

/-- Stable descending sort by key — the unique output of Python's stable
`list.sort(key=..., reverse=True)`. -/
def sortByKeyDesc {α : Type} (key : α → ℚ) : List α → List α
  | [] => []
  | x :: xs => insertByKeyDesc key x (sortByKeyDesc key xs)

/-- 1-based ranking of a list (`enumerate(..., 1)` shapes). -/
def rankify {α : Type} (rank : Nat) : List α → List (α × Nat)
  | [] => []
  | x :: xs => (x, rank) :: rankify (rank + 1) xs

/-! ### Chunk and metadata values (`chunker.Chunk`, consumed by the store) -/

/-- A value of the chunk metadata dict: string, list of strings, bool or
Python `None`. -/
inductive MetaVal where
  | str (s : String)
  | strList (l : List String)
  | boolean (b : Bool)
  | null
deriving DecidableEq

/-- Python `f"{v}"` on a metadata value (list formatting abstracted; it never
occurs in the id computation because `source_url` is a string or `None`). -/
def pyFormat : MetaVal → String
  | .str s => s
  | .strList l => String.intercalate ", " l
  | .boolean b => if b then "True" else "False"
  | .null => "None"

/-- `chunker.Chunk`: content plus a metadata dict. -/
structure Chunk where
  content : String
  metadata : List (String × MetaVal)
deriving DecidableEq

/-- Python `dict.get(k, default)`. -/
def metaGet (m : List (String × MetaVal)) (k : String) (dflt : MetaVal) :
    MetaVal :=
  match dictFind m k with
  | some v => v
  | none => dflt

/-! ### `SQLiteStore` (src/rag/sqlite_store.py) -/

namespace SQLiteStore

/-- `SQLiteStore._generate_id`: `sha256(f"{source_url}:{content}")`, the hash
abstracted by the hashed text itself (injective in practice). -/
def generate_id (content : String) (source_url : MetaVal) : String :=
  pyFormat source_url ++ ":" ++ content

/-- The id the `add` loop computes for a chunk:
`_generate_id(chunk.content, chunk.metadata.get("source_url", ""))`. -/
def chunkId (c : Chunk) : String :=
  generate_id c.content (metaGet c.metadata "source_url" (.str ""))

/-- Metadata conversion in `add`: list values become `" > "`-joined strings
(`" > ".join(str(v) for v in value) if value else ""`), others pass through. -/
def convertMeta (m : List (String × MetaVal)) : List (String × MetaVal) :=
  m.map (fun p =>
    match p.2 with
    | .strList l => (p.1, .str (String.intercalate " > " l))
    | v => (p.1, v))

/-- One row of the `documents` table (embedding blob kept as the float list it
serializes; the `collection` column is fixed per store instance and omitted:
the model is the slice of the table belonging to this collection; the
`section` column is called `sect` because `section` is a Lean keyword). -/
structure StoredDoc where
  content : String
  source_url : MetaVal
  sect : MetaVal
  metadata : List (String × MetaVal)
  embedding : List ℚ
deriving DecidableEq

/-- The row `add` writes for a chunk/embedding pair. -/
def mkDoc (c : Chunk) (e : List ℚ) : StoredDoc :=
  let md := convertMeta c.metadata
  { content := c.content
    source_url := metaGet md "source_url" (.str "")
    sect := metaGet md "section" (.str "")
    metadata := md
    embedding := e }

/-- The `documents` table of one collection, keyed by `id` in rowid order. -/
def Store := List (String × StoredDoc)

/-- Row lookup by id. -/
def lookupRow (s : Store) (i : String) : Option StoredDoc :=
  dictFind s i

/-- The per-chunk body of `add`: check-then-`UPDATE` or `INSERT` is exactly a
keyed set. -/
def upsertRow (s : Store) (i : String) (d : StoredDoc) : Store :=
  dictSet s i d

/-- The `for chunk, embedding in zip(chunks, embeddings)` loop of `add`, with
the `seen_ids` within-batch deduplication set. -/
def addLoop (s : Store) : List (Chunk × List ℚ) → List String → Store
  | [], _ => s
  | (c, e) :: rest, seen =>
    let i := chunkId c
    if i ∈ seen then addLoop s rest seen
    else addLoop (upsertRow s i (mkDoc c e)) rest (i :: seen)

/-- `SQLiteStore.add`. Returns `Except` because a length mismatch raises
`ValueError`; the empty-batch early return precedes the length check. -/
def add (s : Store) (chunks : List Chunk) (embeddings : List (List ℚ)) :
    Except String Store :=
  if chunks = [] then .ok s
  else if chunks.length ≠ embeddings.length then
    .error "Number of chunks must match embeddings"
  else .ok (addLoop s (chunks.zip embeddings) [])

/-- `SQLiteStore.count`: `SELECT COUNT(*) ... WHERE collection = ?`. -/
def count (s : Store) : Nat :=
  s.length

/-- The deduplicated write list the `add` loop performs, in order. -/
def writesOf : List (Chunk × List ℚ) → List String → List (String × StoredDoc)
  | [], _ => []
  | (c, e) :: rest, seen =>
    let i := chunkId c
    if i ∈ seen then writesOf rest seen
    else (i, mkDoc c e) :: writesOf rest (i :: seen)

/-- Apply a write list left to right. -/
def applyWrites (s : Store) (w : List (String × StoredDoc)) : Store :=
  w.foldl (fun t p => upsertRow t p.1 p.2) s

/-! #### Hybrid search (`SQLiteStore.search`, `_parse_fts_query`)

The two SQL rankings (sqlite-vec k-NN ordered by ascending distance, FTS5
ordered by ascending BM25) are external ranking engines; the model takes
their result rows as parameters and embeds everything the Python code does
with them. -/

/-- Search tuning constants of `SQLiteStore` (floats as exact rationals). -/
def RRF_K : ℚ := 60

/-- `SEMANTIC_WEIGHT = 1.0`. -/
def SEMANTIC_WEIGHT : ℚ := 1

/-- `KEYWORD_WEIGHT = 1.2`. -/
def KEYWORD_WEIGHT : ℚ := 6 / 5

/-- `SECTION_BOOST = 2.0`. -/
def SECTION_BOOST : ℚ := 2

/-- `SQLiteStore.STOP_WORDS`. -/
def STOP_WORDS : List String :=
  ["a", "an", "and", "are", "as", "at", "be", "by", "for", "from",
   "has", "he", "in", "is", "it", "its", "of", "on", "or", "that",
   "the", "to", "was", "were", "will", "with", "how", "what", "when",
   "where", "which", "who", "why", "can", "do", "does", "should", "would"]

/-- A row as the two search SQL queries return it (`d.id, d.content,
d.source_url, d.section, d.metadata`; nullable columns are `Option`). -/
structure DocRow where
  id : String
  content : String
  source_url : Option String
  sect : Option String
  metadata : Option String
deriving DecidableEq

/-- `SearchResult` dataclass of sqlite_store.py.  `metadata` keeps the raw
JSON text: `json.loads` is abstracted as the identity on the serialized
payload (`none` is the empty dict produced for NULL/empty metadata). -/
structure SearchResult where
  content : String
  source_url : String
  sect : String
  score : ℚ
  metadata : Option String
  semantic_rank : Option Nat
  keyword_rank : Option Nat
deriving DecidableEq

/-- `json.loads(row["metadata"]) if row["metadata"] else {}` — with parsing
abstracted, NULL and `""` both give the empty dict (`none`). -/
def parseMeta (o : Option String) : Option String :=
  match o with
  | none => none
  | some s => if s = "" then none else some s

/-- State-machine scan realizing the combined effect of
`re.findall(r'"([^"]+)"', q)` and `re.sub(r'"[^"]+"', '', q)`: the state is
`none` outside a candidate match and `some col` after an opening quote with
the characters collected so far (reversed).  A closing quote with a non-empty
middle completes a match; a quote pair with nothing between is no match, so
the opening quote stays in the remainder and scanning resumes at the second
quote; an unclosed opening quote and its tail stay in the remainder — exactly
the regex engine's behaviour. -/
def findPhrasesAux : Option (List Char) → List Char → List (List Char) × List Char
  | none, [] => ([], [])
  | some col, [] => ([], '"' :: col.reverse)
  | none, c :: rest =>
    if c = '"' then findPhrasesAux (some []) rest
    else
      let (ps, rem) := findPhrasesAux none rest
      (ps, c :: rem)
  | some col, c :: rest =>
    if c = '"' then
      if col = [] then
        let (ps, rem) := findPhrasesAux (some []) rest
        (ps, '"' :: rem)
      else
        let (ps, rem) := findPhrasesAux none rest
        (col.reverse :: ps, rem)
    else findPhrasesAux (some (c :: col)) rest

/-- Quoted phrases of a query and the query text with them removed. -/
def findPhrases (l : List Char) : List (List Char) × List Char :=
  findPhrasesAux none l

/-- Term cleaning in `_parse_fts_query`:
`re.sub(r'[^\w\-]', '', word.lower())`. -/
def cleanWord (w : List Char) : List Char :=
  (w.map Char.toLower).filter (fun c => isWordChar c || c = '-')

/-- The individual terms extracted from the de-phrased query text:
cleaned words of length `> 1` that are not stop words. -/
def ftsTerms (remaining : List Char) : List String :=
  (pySplitWs remaining).filterMap (fun w =>
    let w' := cleanWord w
    if w'.length > 1 ∧ String.mk w' ∉ STOP_WORDS then some (String.mk w')
    else none)

/-- Phrase cleaning: `' '.join(w for w in phrase.split() if w.lower() not in
STOP_WORDS)`, kept only when non-empty, wrapped in FTS quotes. -/
def ftsPhraseParts (phrases : List (List Char)) : List String :=
  phrases.filterMap (fun p =>
    let clean := String.intercalate " "
      ((pySplitWs p).filterMap (fun w =>
        if String.mk (w.map Char.toLower) ∈ STOP_WORDS then none
        else some (String.mk w)))
    if clean = "" then none else some ("\"" ++ clean ++ "\""))

/-- `SQLiteStore._parse_fts_query`. -/
def parse_fts_query (query_text : String) : String :=
  let q := pyStrip query_text
  if q = "" then ""
  else
    let pr := findPhrases q.data
    let terms := ftsTerms pr.2
    let parts := ftsPhraseParts pr.1 ++
      terms.map (fun t =>
        if t.length ≥ 3 then "\"" ++ t ++ "\"*" else "\"" ++ t ++ "\"")
    if parts = [] then "" else String.intercalate " OR " parts

/-- Python truthiness of an optional integer (`None` and `0` are falsy). -/
def pyTruthy : Option Nat → Bool
  | none => false
  | some n => n != 0

/-- The dict value stored in `doc_scores` for one candidate document. -/
structure ScoreEntry where
  content : String
  source_url : String
  sect : String
  metadata : Option String
  semantic_rank : Option Nat
  keyword_rank : Option Nat
  section_match : Bool
deriving DecidableEq

/-- Entry written by the semantic loop (`for rank, row in
enumerate(semantic_results, 1)`). -/
def semEntry (rank : Nat) (row : DocRow) : ScoreEntry :=
  { content := row.content
    source_url := row.source_url.getD ""
    sect := row.sect.getD ""
    metadata := parseMeta row.metadata
    semantic_rank := some rank
    keyword_rank := none
    section_match := false }

/-- Entry written by the keyword loop for a document absent from the
semantic results. -/
def kwEntry (rank : Nat) (row : DocRow) (isMatch : Bool) : ScoreEntry :=
  { content := row.content
    source_url := row.source_url.getD ""
    sect := row.sect.getD ""
    metadata := parseMeta row.metadata
    semantic_rank := none
    keyword_rank := some rank
    section_match := isMatch }

/-- The semantic half of the `doc_scores` build. -/
def semLoop (rank : Nat) (rows : List DocRow)
    (m : List (String × ScoreEntry)) : List (String × ScoreEntry) :=
  match rows with
  | [] => m
  | row :: rest => semLoop (rank + 1) rest (dictSet m row.id (semEntry rank row))

/-- The keyword half of the `doc_scores` build: update the ranks of known
documents in place, append unknown ones. -/
def kwLoop (rank : Nat) (rows : List DocRow) (section_matches : List String)
    (m : List (String × ScoreEntry)) : List (String × ScoreEntry) :=
  match rows with
  | [] => m
  | row :: rest =>
    let isMatch := row.id ∈ section_matches
    let m' :=
      if (dictFind m row.id).isSome then
        dictModify m row.id (fun e =>
          { e with keyword_rank := some rank, section_match := isMatch })
      else m ++ [(row.id, kwEntry rank row isMatch)]
    kwLoop (rank + 1) rest section_matches m'

/-- Weighted RRF score of one `doc_scores` entry (`if data["semantic_rank"]:`
is Python truthiness, hence the `pyTruthy` guards). -/
def scoreOf (e : ScoreEntry) : ℚ :=
  (if pyTruthy e.semantic_rank then
    SEMANTIC_WEIGHT / (RRF_K + ((e.semantic_rank.getD 0 : Nat) : ℚ))
   else 0)
  + (if pyTruthy e.keyword_rank then
      (KEYWORD_WEIGHT / (RRF_K + ((e.keyword_rank.getD 0 : Nat) : ℚ)))
        * (if e.section_match then SECTION_BOOST else 1)
     else 0)

/-- `SearchResult` built from a `doc_scores` entry. -/
def resultOfEntry (e : ScoreEntry) : SearchResult :=
  { content := e.content
    source_url := e.source_url
    sect := e.sect
    score := scoreOf e
    metadata := e.metadata
    semantic_rank := e.semantic_rank
    keyword_rank := e.keyword_rank }

/-- The `SearchResult` rows of the `semantic_only` early-return branch
(`score = SEMANTIC_WEIGHT / (RRF_K + rank)`, `keyword_rank = None`). -/
def rankedSemantic (rank : Nat) : List DocRow → List SearchResult
  | [] => []
  | row :: rest =>
    { content := row.content
      source_url := row.source_url.getD ""
      sect := row.sect.getD ""
      score := SEMANTIC_WEIGHT / (RRF_K + (rank : ℚ))
      metadata := parseMeta row.metadata
      semantic_rank := some rank
      keyword_rank := none } :: rankedSemantic (rank + 1) rest

/-- The non-stop-word lowercased query terms used for the section boost
(`set(w.lower() for w in query_text.split() if len(w) > 1 and w.lower() not
in STOP_WORDS)`; the set is only used for membership, so a list models it). -/
def boostTerms (query_text : String) : List String :=
  (pySplitWs query_text.data).filterMap (fun w =>
    let lw := String.mk (w.map Char.toLower)
    if w.length > 1 ∧ lw ∉ STOP_WORDS then some lw else none)

/-- Ids of keyword rows whose (lowercased) section contains some boost term as
a substring. -/
def sectionMatches (rows : List DocRow) (terms : List String) : List String :=
  rows.filterMap (fun row =>
    if terms.any (fun t => listContainsSub (lowerStr (row.sect.getD "")).data t.data)
    then some row.id else none)

/-- Both rank fields of a `doc_scores` entry are 1-based when present (the
invariant the two build loops maintain). -/
def ranksOk (e : ScoreEntry) : Prop :=
  (∀ n, e.semantic_rank = some n → 1 ≤ n) ∧
    (∀ n, e.keyword_rank = some n → 1 ≤ n)

/-- The `doc_scores` entries the semantic loop appends when every id is
fresh. -/
def rowsEntries (r : Nat) : List DocRow → List (String × ScoreEntry)
  | [] => []
  | row :: rest => (row.id, semEntry r row) :: rowsEntries (r + 1) rest

/-- `SQLiteStore.search`.  `semanticRows` are the rows the sqlite-vec query
returns (ascending distance, at most the candidate pool size) and
`keywordRows` the rows the FTS5 query would return for the parsed query
(ascending BM25); both SQL rankings are external to the model.  When the
parsed FTS query is empty the code never runs the keyword SQL, hence the
`keyword_results` guard. -/
def search (semanticRows keywordRows : List DocRow) (query_text : String)
    (top_k : Nat) (semantic_only : Bool) : List SearchResult :=
  if semantic_only || pyStrip query_text = "" then
    rankedSemantic 1 (semanticRows.take top_k)
  else
    let fts_query := parse_fts_query query_text
    let keyword_results := if fts_query = "" then [] else keywordRows
    let section_matches :=
      if fts_query = "" then []
      else sectionMatches keyword_results (boostTerms query_text)
    let doc_scores := kwLoop 1 keyword_results section_matches (semLoop 1 semanticRows [])
    let results := doc_scores.map (fun p => resultOfEntry p.2)
    (sortByKeyDesc SearchResult.score results).take top_k

end SQLiteStore

/-! ### `QueryExpander` (src/rag/query_expander.py)

The Ollama generation call is external: its outcome (a raw response text, or
any of the two caught exception kinds) is a parameter of `expand`. -/

namespace QueryExpander

/-- Outcome of the `self._client.generate(...)` call. -/
inductive LLMOutcome where
  | response (text : String)
  | failure
deriving DecidableEq

/-- Both-ends strip over a character class (Python `str.strip(chars)`). -/
def pyStripSet (p : Char → Bool) (l : List Char) : List Char :=
  ((l.dropWhile p).reverse.dropWhile p).reverse

/-- `line.split('.', 1)[1]`: everything after the first dot. -/
def afterFirstDot (l : List Char) : List Char :=
  (l.dropWhile (fun c => c ≠ '.')).drop 1

/-- Bullet characters removed by `line.lstrip('•-*')`. -/
def isBulletChar (c : Char) : Bool :=
  c = '•' || c = '-' || c = '*'

/-- Quote characters removed by `line.strip('"\'')`. -/
def isQuoteChar (c : Char) : Bool :=
  c = '"' || c = '\''

/-- Meta-word prefixes that cause a line to be dropped. -/
def metaWords : List String :=
  ["here", "alternative", "variation", "query"]

/-- One iteration of the `_parse_response` line loop: `none` when the line is
skipped. -/
def parseLine (line : String) : Option String :=
  let l1 := pyStripList line.data
  let l2 :=
    match l1 with
    | [] => l1
    | c :: _ =>
      if c.isDigit ∧ '.' ∈ l1.take 4 then pyStripList (afterFirstDot l1)
      else l1
  let l3 := pyStripList (l2.dropWhile isBulletChar)
  let l4 := pyStripSet isQuoteChar l3
  if l4 = [] ∨ metaWords.any (fun w => w.data.isPrefixOf (l4.map Char.toLower))
  then none
  else some (String.mk l4)

/-- `QueryExpander._parse_response`. -/
def parse_response (response : String) : List String :=
  if response = "" then []
  else ((pyStrip response).splitOn "\n").filterMap parseLine

/-- `QueryExpander.expand`.  `num_variations` is the instance setting
(default 3); `outcome` is what the generation client did. -/
def expand (num_variations : Nat) (query : String) (outcome : LLMOutcome) :
    List String :=
  if query = "" ∨ pyStrip query = "" then [query]
  else
    let q := pyStrip query
    match outcome with
    | .failure => [q]
    | .response text =>
      let variations := parse_response text
      let result := q :: variations.filterMap (fun v =>
        if v ≠ "" ∧ pyStrip v ≠ "" ∧ pyStrip v ≠ q then some (pyStrip v) else none)
      result.take (num_variations + 1)

end QueryExpander

/-! ### `HybridSearch` (src/rag/search.py)

This searcher runs over the legacy `VectorStore` (store.py); its embedding
calls and store queries are external, so the semantic result list and the
expanded candidate pool are parameters. -/

/-- `SearchResult` dataclass of store.py. -/
structure StoreSearchResult where
  content : String
  source_url : String
  sect : String
  score : ℚ
  metadata : Option String
deriving DecidableEq

/-- `HybridSearchResult` dataclass of search.py. -/
structure HybridSearchResult where
  content : String
  source_url : String
  sect : String
  score : ℚ
  semantic_rank : Option Nat
  keyword_rank : Option Nat
deriving DecidableEq

namespace HybridSearch

/-- `HybridSearch.RRF_K`. -/
def RRF_K : ℚ := 60

/-- The stop-word set local to `_extract_query_terms`. -/
def stop_words : List String :=
  ["a", "an", "and", "are", "as", "at", "be", "by", "for", "from",
   "has", "he", "in", "is", "it", "its", "of", "on", "that", "the",
   "to", "was", "will", "with"]

/-- `HybridSearch._normalize_text`: `text.lower().strip()`. -/
def normalize_text (text : String) : String :=
  pyStrip (lowerStr text)

/-- Maximal word-character runs (`re.findall(r'\b\w+\b', ...)`), collected
with the current run reversed. -/
def wordRunsAux (cur : List Char) : List Char → List (List Char)
  | [] => if cur = [] then [] else [cur.reverse]
  | c :: rest =>
    if isWordChar c then wordRunsAux (c :: cur) rest
    else if cur = [] then wordRunsAux [] rest
    else cur.reverse :: wordRunsAux [] rest

/-- `HybridSearch._extract_query_terms`. -/
def extract_query_terms (query : String) : List String :=
  (wordRunsAux [] (normalize_text query).data).filterMap (fun t =>
    if t.length > 1 ∧ String.mk t ∉ stop_words then some (String.mk t) else none)

/-- Non-overlapping occurrence count, needle `c0 :: ctail` (Python
`str.count` scanning left-to-right). -/
def countOccsAux (c0 : Char) (ctail : List Char) : List Char → Nat
  | [] => 0
  | c :: rest =>
    if (c0 :: ctail).isPrefixOf (c :: rest) then
      1 + countOccsAux c0 ctail (rest.drop ctail.length)
    else countOccsAux c0 ctail rest
termination_by l => l.length
decreasing_by
  · simp [List.length_drop]; omega
  · simp

/-- Python `hay.count(needle)` (the empty needle counts every gap, as in
Python; the searcher only ever counts terms of length `> 1`). -/
def countOccs (needle hay : List Char) : Nat :=
  match needle with
  | [] => hay.length + 1
  | c :: ct => countOccsAux c ct hay

/-- `HybridSearch._keyword_score`. -/
def keyword_score (text : String) (query_terms : List String) : ℚ :=
  if query_terms = [] then 0
  else
    ((query_terms.map (fun t => countOccs t.data (normalize_text text).data)).sum : Nat)

/-- `HybridSearch._keyword_search` over a candidate pool: score, keep the
positives, sort stably by score descending, take `top_k`, rank 1-based. -/
def keyword_search (query : String) (top_k : Nat)
    (candidate_pool : List StoreSearchResult) : List (StoreSearchResult × Nat) :=
  let query_terms := extract_query_terms query
  if query_terms = [] then []
  else
    let scored := candidate_pool.filterMap (fun doc =>
      let content_score := keyword_score doc.content query_terms
      let section_score := keyword_score doc.sect query_terms * 2
      let total := content_score + section_score
      if 0 < total then some (doc, total) else none)
    rankify 1 (((sortByKeyDesc (fun p => p.2) scored).take top_k).map Prod.fst)

/-- `HybridSearch._rrf_score` (`is not None` checks, no weights). -/
def rrf_score (semantic_rank keyword_rank : Option Nat) : ℚ :=
  (match semantic_rank with
   | some r => 1 / (RRF_K + (r : ℚ))
   | none => 0)
  + (match keyword_rank with
     | some r => 1 / (RRF_K + (r : ℚ))
     | none => 0)

/-- The dict key `f"{result.source_url}:{hash(result.content)}"`, with
Python's `hash` abstracted by the hashed string itself. -/
def poolKey (r : StoreSearchResult) : String :=
  r.source_url ++ ":" ++ r.content

/-- `HybridSearch._combine_results`. -/
def combine_results
    (semantic_results keyword_results : List (StoreSearchResult × Nat)) :
    List (String × (StoreSearchResult × Option Nat × Option Nat)) :=
  let m := semantic_results.foldl
    (fun m p => dictSet m (poolKey p.1) (p.1, some p.2, (none : Option Nat))) []
  keyword_results.foldl (fun m p =>
    let key := poolKey p.1
    match dictFind m key with
    | some (er, sr, _) => dictSet m key (er, sr, some p.2)
    | none => m ++ [(key, (p.1, none, some p.2))]) m

/-- The candidate-pool extension loop of `search`: walk the expanded pool
with a seen-key set, appending docs not already in the pool (which grows as
the loop runs, as the Python list does). -/
def buildPool (candidate_pool expanded : List StoreSearchResult) :
    List StoreSearchResult :=
  (expanded.foldl (fun (st : List StoreSearchResult × List String) doc =>
    let key := poolKey doc
    if key ∈ st.2 then st
    else (if doc ∈ st.1 then st.1 else st.1 ++ [doc], key :: st.2))
    (candidate_pool, [])).1

/-- `HybridSearch.search`.  `semanticRaw` is what `_semantic_search`'s store
query returns for this query; `expandedPool` is what `_get_candidate_pool`
returns (it swallows store errors into `[]`, so an arbitrary list covers
every outcome).  Both involve the external embedder and store and are
parameters; everything after them is embedded from the source. -/
def search (semanticRaw expandedPool : List StoreSearchResult)
    (query : String) (top_k : Nat) : List HybridSearchResult :=
  if query = "" ∨ pyStrip query = "" then []
  else
    let semantic_results := rankify 1 semanticRaw
    let candidate_pool := buildPool (semantic_results.map (fun p => p.1)) expandedPool
    let keyword_results := keyword_search query top_k candidate_pool
    let combined := combine_results semantic_results keyword_results
    let hybrid := combined.map (fun p =>
      { content := p.2.1.content
        source_url := p.2.1.source_url
        sect := p.2.1.sect
        score := rrf_score p.2.2.1 p.2.2.2
        semantic_rank := p.2.2.1
        keyword_rank := p.2.2.2 : HybridSearchResult })
    (sortByKeyDesc HybridSearchResult.score hybrid).take top_k

end HybridSearch

/-! ### `MarkdownChunker` (src/rag/chunker.py)

The chunker is pure string processing; it is embedded as a function of the
file content.  The heading regexes (`^#\s+(.+)$`, `^(#{2,3})\s+(.+)$`, both
MULTILINE) are modelled line by line: `\s` is taken intra-line, which agrees
with the regex on every input whose heading whitespace does not itself
contain a newline. -/

namespace Chunker

/-- `TARGET_MAX_CHARS = TARGET_MAX_TOKENS * CHARS_PER_TOKEN = 2000`. -/
def TARGET_MAX_CHARS : Nat := 2000

/-- Whitespace of `\s` excluding the newline (for per-line matching). -/
def isIntraWs (c : Char) : Bool :=
  isPyWs c && c ≠ '\n'

/-- `re.split(r'\n\n+', text)`: pieces separated by maximal runs of two or
more newlines (the current piece is accumulated in reverse; a separator
starts wherever two consecutive newlines appear, and greedily extends over
the whole newline run). -/
def splitParasAux (cur : List Char) (l : List Char) : List (List Char) :=
  match l with
  | [] => [cur.reverse]
  | c :: rest =>
    if c = '\n' ∧ rest.head? = some '\n' then
      cur.reverse :: splitParasAux [] ((rest.drop 1).dropWhile (fun c => c = '\n'))
    else splitParasAux (c :: cur) rest
termination_by l.length
decreasing_by
  · have h1 := ((List.dropWhile_suffix (l := rest.tail)
      (fun c => c = '\n')).sublist).length_le
    have h2 : rest.tail.length ≤ rest.length := by
      cases rest <;> simp
    simp; omega
  · simp

/-- Paragraph split of a section text. -/
def splitParas (s : String) : List String :=
  (splitParasAux [] s.data).map String.mk

/-- `'\n\n'.join(current_chunk)`. -/
def joinNN : List String → String
  | [] => ""
  | [a] => a
  | a :: rest => a ++ "\n\n" ++ joinNN rest

/-- The greedy paragraph-packing loop of `_split_on_paragraphs` (`current`
is `current_chunk` in order, `size` is `current_size`). -/
def packParas (max_size : Nat) : List String → List String → Nat → List String
  | [], current, _ =>
    if current = [] then [] else [joinNN current]
  | para :: rest, current, size =>
    if current ≠ [] ∧ size + para.length + 2 > max_size then
      joinNN current :: packParas max_size rest [para] (para.length + 2)
    else
      packParas max_size rest (current ++ [para]) (size + para.length + 2)

/-- Offset of the first `` ``` `` in a list (how the lazy `[\s\S]*?` finds
the closing fence). -/
def findTriple (l : List Char) : Option Nat :=
  match l with
  | [] => none
  | c :: rest =>
    if (c :: rest).take 3 = ['`', '`', '`'] then some 0
    else (findTriple rest).map (fun n => n + 1)

/-- Length of the non-newline prefix (the current line). -/
def lineLen (l : List Char) : Nat :=
  (l.takeWhile (fun c => c ≠ '\n')).length

/-- Number of leading spaces. -/
def leadSpaces (l : List Char) : Nat :=
  (l.takeWhile (fun c => c = ' ')).length

/-- Whether `(?: {4,}|\t).+` matches at a line start, with the regex's
backtracking: a tab followed by at least one further character of the line,
or at least four spaces with at least one further character (possibly itself
whitespace — a line of five or more spaces matches).  The greedy `.+` makes
the match cover the whole line. -/
def indentLineMatch (l : List Char) : Option Nat :=
  match l with
  | [] => none
  | c :: rest =>
    if c = '\t' then
      if 1 ≤ lineLen rest then some (1 + lineLen rest) else none
    else if 4 ≤ leadSpaces (c :: rest) ∧ leadSpaces (c :: rest) + 1 ≤ lineLen (c :: rest) then
      some (lineLen (c :: rest))
    else if 5 ≤ leadSpaces (c :: rest) ∧ leadSpaces (c :: rest) = lineLen (c :: rest) then
      some (lineLen (c :: rest))
    else none

/-- Length matched by the greedy continuation `(?:\n(?: {4,}|\t).+)*`. -/
def indentContinuation (l : List Char) : Nat :=
  match l with
  | '\n' :: rest =>
    match indentLineMatch rest with
    | some k => 1 + k + indentContinuation (rest.drop k)
    | none => 0
  | _ => 0
termination_by l.length
decreasing_by
  simp [List.length_drop]; omega

/-- Full indented-block match at a line start. -/
def indentBlockLen (l : List Char) : Option Nat :=
  match indentLineMatch l with
  | some k => some (k + indentContinuation (l.drop k))
  | none => none

/-- The indented alternative of `CODE_BLOCK_PATTERN` at the current scan
position: `(?:^|\n)` matches zero-width at position 0 and otherwise consumes
a newline into the match. -/
def indentMatchAt (l : List Char) (atStart : Bool) : Option Nat :=
  if atStart then indentBlockLen l
  else
    match l with
    | [] => none
    | c :: rest =>
      if c = '\n' then (indentBlockLen rest).map (fun k => 1 + k) else none

/-- `CODE_BLOCK_PATTERN.finditer`: at each position try the fenced
alternative first, then the indented one; a match is emitted and scanning
resumes at its end.  Every step consumes at least one character, so fuel
equal to the text length never runs out. -/
def scanCBF : Nat → Nat → List Char → Bool → List (Nat × Nat)
  | 0, _, _, _ => []
  | _ + 1, _, [], _ => []
  | fuel + 1, pos, c :: rest, atStart =>
    if (c :: rest).take 3 = ['`', '`', '`'] then
      match findTriple ((c :: rest).drop 3) with
      | some i =>
        (pos, pos + (3 + i + 3))
          :: scanCBF fuel (pos + (3 + i + 3)) ((c :: rest).drop (3 + i + 3)) false
      | none =>
        match indentMatchAt (c :: rest) atStart with
        | some len =>
          (pos, pos + len) :: scanCBF fuel (pos + len) ((c :: rest).drop len) false
        | none => scanCBF fuel (pos + 1) rest false
    else
      match indentMatchAt (c :: rest) atStart with
      | some len =>
        (pos, pos + len) :: scanCBF fuel (pos + len) ((c :: rest).drop len) false
      | none => scanCBF fuel (pos + 1) rest false

/-- `MarkdownChunker._find_code_block_ranges`. -/
def find_code_block_ranges (text : String) : List (Nat × Nat) :=
  scanCBF text.data.length 0 text.data true

/-- `MarkdownChunker._has_code_blocks`. -/
def has_code_blocks (text : String) : Bool :=
  !(find_code_block_ranges text).isEmpty

/-- `MarkdownChunker._split_on_paragraphs`. -/
def split_on_paragraphs (text : String) (max_size : Nat) : List String :=
  if text.length ≤ max_size then [text]
  else
    -- the source computes `code_ranges = self._find_code_block_ranges(text)`
    -- here and never uses it: the packing below ignores code blocks
    let _code_ranges := find_code_block_ranges text
    packParas max_size (splitParas text) [] 0

/-- Scan of the lazy `(.+?)\s*-->` closing of `SOURCE_PATTERN`: consume URL
characters (never newlines) one at a time; after each one, test whether the
maximal whitespace run followed by `-->` closes the match (`-->` can only
begin at a non-whitespace character, so the maximal run is the only
candidate).  Returns the URL group (accumulated in reverse) and the length
consumed. -/
def findCommentClose (acc : List Char) (n : Nat) (l : List Char) :
    Option (String × Nat) :=
  match l with
  | [] => none
  | c :: rest =>
    if c = '\n' then none
    else
      let w := rest.takeWhile isPyWs
      if (rest.drop w.length).take 3 = ['-', '-', '>'] then
        some (String.mk (c :: acc).reverse, n + 1 + w.length + 3)
      else findCommentClose (c :: acc) (n + 1) rest

/-- Match `SOURCE_PATTERN = <!--\s*Source:\s*(.+?)\s*-->` at the head of
`l`: URL group and total match length.  (The regex can also close a comment
whose URL group is pure whitespace by backtracking the `\s*` before the
group; such comments — `Source:` with no URL at all — are not modelled.) -/
def matchSourceComment (l : List Char) : Option (String × Nat) :=
  if l.take 4 = ['<', '!', '-', '-'] then
    let rest := l.drop 4
    let w1 := rest.takeWhile isPyWs
    let rest2 := rest.drop w1.length
    if rest2.take 7 = "Source:".data then
      let rest3 := rest2.drop 7
      let w2 := rest3.takeWhile isPyWs
      match findCommentClose [] 0 (rest3.drop w2.length) with
      | some (url, k) => some (url, 4 + w1.length + 7 + w2.length + k)
      | none => none
    else none
  else none

/-- `SOURCE_PATTERN.sub('', content)`: drop every match, scanning left to
right (fuel equal to the length never runs out: a match consumes at least
its `<!--`). -/
def removeSCAux : Nat → List Char → List Char
  | _, [] => []
  | 0, l => l
  | fuel + 1, c :: rest =>
    match matchSourceComment (c :: rest) with
    | some (_, k) => removeSCAux fuel ((c :: rest).drop k)
    | none => c :: removeSCAux fuel rest

/-- The comment-stripped document text. -/
def removeSourceComments (content : String) : String :=
  String.mk (removeSCAux content.data.length content.data)

/-- `SOURCE_PATTERN.search`: the first source comment's URL. -/
def firstSC (l : List Char) : Option String :=
  match l with
  | [] => none
  | _ :: rest =>
    match matchSourceComment l with
    | some (url, _) => some url
    | none => firstSC rest

/-- `MarkdownChunker._extract_source_url` (searched on the raw content). -/
def extract_source_url (content : String) : Option String :=
  firstSC content.data

/-- The `\s+(.+)$` tail of a heading pattern within one line, with greedy
backtracking: the maximal whitespace run must leave at least one character
for `.+`; if the whole tail is whitespace, `.+` falls back to the last
whitespace character (so at least two are needed). -/
def parseHeaderTail (tail : List Char) : Option String :=
  let w := tail.takeWhile isIntraWs
  let rest := tail.drop w.length
  if w = [] then none
  else if rest ≠ [] then some (String.mk rest)
  else
    match w.reverse with
    | c :: _ => if 2 ≤ w.length then some (String.mk [c]) else none
    | [] => none

/-- `^(#{2,3})\s+(.+)$` on one line: two or three leading `#` (a longer run
backtracks and then fails on the following `#`), then the tail. -/
def parseHeaderLine (line : String) : Option (Nat × String) :=
  let n := (line.data.takeWhile (fun c => c = '#')).length
  if n = 2 ∨ n = 3 then
    (parseHeaderTail (line.data.drop n)).map (fun t => (n, t))
  else none

/-- `^#\s+(.+)$` (the `H1_PATTERN`) on one line. -/
def parseH1Line (line : String) : Option String :=
  let n := (line.data.takeWhile (fun c => c = '#')).length
  if n = 1 then parseHeaderTail (line.data.drop 1) else none

/-- Lines of a string with their character offsets (the line structure the
MULTILINE anchors see). -/
def linesAux (curStart : Nat) (cur : List Char) : List Char → List (Nat × String)
  | [] => [(curStart, String.mk cur.reverse)]
  | c :: rest =>
    if c = '\n' then
      (curStart, String.mk cur.reverse) :: linesAux (curStart + cur.length + 1) [] rest
    else linesAux curStart (c :: cur) rest

/-- All lines with offsets. -/
def linesWithPos (s : String) : List (Nat × String) :=
  linesAux 0 [] s.data

/-- `MarkdownChunker._extract_page_title`: first H1 match on the raw
content. -/
def extract_page_title (content : String) : Option String :=
  ((linesWithPos content).filterMap (fun p => parseH1Line p.2)).head?

/-- One `HEADER_PATTERN` match: position, level, title and the matched text
(`group(0)`, the whole line). -/
structure HeaderM where
  pos : Nat
  level : Nat
  title : String
  text : String
deriving DecidableEq

/-- `HEADER_PATTERN.finditer` over the working content. -/
def headersOf (s : String) : List HeaderM :=
  (linesWithPos s).filterMap (fun p =>
    (parseHeaderLine p.2).map (fun lt => ⟨p.1, lt.1, lt.2, p.2⟩))

/-- `MarkdownChunker._extract_hierarchy` (`if not section_header` is Python
falsiness, so the empty string also yields `[]`). -/
def extract_hierarchy (section_header : Option String)
    (preceding : List String) : List String :=
  match section_header with
  | none => []
  | some h =>
    if h = "" then []
    else
      match parseHeaderLine h with
      | none => []
      | some (lvl, title) =>
        (preceding.filterMap (fun ph =>
          match parseHeaderLine ph with
          | some (plvl, ptitle) => if plvl < lvl then some ptitle else none
          | none => none)) ++ [title]

/-- One section record of the `chunk()` scan. -/
structure SectionRec where
  header : Option String
  content : String
  hierarchy : List String
deriving DecidableEq

/-- The header-driven section loop of `chunk()`: each section runs from its
header to the next header (or the end), stripped; `history` is
`header_history`. -/
def goSections (working : String) : List HeaderM → List String → List SectionRec
  | [], _ => []
  | h :: rest, history =>
    let sEnd :=
      match rest with
      | h' :: _ => h'.pos
      | [] => working.length
    let scontent := pyStrip (String.mk ((working.data.take sEnd).drop h.pos))
    ⟨some h.text, scontent, extract_hierarchy (some h.text) history⟩
      :: goSections working rest (history ++ [h.text])

/-- The optional intro section: content before the first header (intro is
only considered when a header exists, and kept when non-empty after
stripping). -/
def introSections (working : String) (hs : List HeaderM) : List SectionRec :=
  match hs with
  | [] => []
  | h :: _ =>
    if pyStrip (String.mk (working.data.take h.pos)) ≠ "" then
      [⟨none, pyStrip (String.mk (working.data.take h.pos)), []⟩]
    else []

/-- All sections of the working content: optional intro before the first
header, the header sections, or the whole document when no section was
found. -/
def buildSections (working : String) : List SectionRec :=
  if introSections working (headersOf working) ++
      goSections working (headersOf working) [] = [] then
    [⟨none, working, []⟩]
  else
    introSections working (headersOf working) ++
      goSections working (headersOf working) []

/-- The metadata dict attached to every chunk. -/
def mkChunkMeta (source_url page_title sectionTitle : Option String)
    (hierarchy : List String) (has_code : Bool) : List (String × MetaVal) :=
  [("source_url", match source_url with | some u => .str u | none => .null),
   ("page_title", match page_title with | some t => .str t | none => .null),
   ("section", match sectionTitle with | some s => .str s | none => .null),
   ("hierarchy", .strList hierarchy),
   ("has_code", .boolean has_code)]

/-- Chunks of one section: a single chunk when within the size target, else
the paragraph sub-chunks with `" (part i/n)"` section titles. -/
def sectionChunks (source_url page_title : Option String) (s : SectionRec) :
    List Chunk :=
  let section_title := s.header.bind (fun h => (parseHeaderLine h).map (fun lt => lt.2))
  if s.content.length ≤ TARGET_MAX_CHARS then
    [⟨s.content,
      mkChunkMeta source_url page_title section_title s.hierarchy
        (has_code_blocks s.content)⟩]
  else
    let subs := split_on_paragraphs s.content TARGET_MAX_CHARS
    subs.mapIdx (fun i sub =>
      let st :=
        if subs.length > 1 then
          match section_title with
          | some t =>
            some (t ++ " (part " ++ toString (i + 1) ++ "/" ++ toString subs.length ++ ")")
          | none => some ("Part " ++ toString (i + 1) ++ "/" ++ toString subs.length)
        else section_title
      ⟨sub, mkChunkMeta source_url page_title st s.hierarchy (has_code_blocks sub)⟩)

/-- `MarkdownChunker.chunk` as a function of the file content. -/
def chunkDoc (content : String) : List Chunk :=
  let source_url := extract_source_url content
  let page_title := extract_page_title content
  let working := pyStrip (removeSourceComments content)
  (buildSections working).flatMap (sectionChunks source_url page_title)

/-- The `hierarchy` metadata entry of a chunk. -/
def chunkHierarchy (c : Chunk) : List String :=
  match metaGet c.metadata "hierarchy" .null with
  | .strList l => l
  | _ => []

/-- The (level, title) heading skeleton of the working content. -/
def headingLT (content : String) : List (Nat × String) :=
  (headersOf (pyStrip (removeSourceComments content))).map (fun h => (h.level, h.title))

/-- Claim-side definition (the spec's reading of `hierarchy`): the ancestor
chain of a heading, walking backwards through the earlier headings (given
reversed) and taking each time the nearest one of strictly smaller level
than the last taken. -/
def specAncestorsRev : List (Nat × String) → Nat → List String
  | [], _ => []
  | (l, t) :: rest, lvl =>
    if l < lvl then specAncestorsRev rest l ++ [t] else specAncestorsRev rest lvl

/-- Claim-side definition: the spec hierarchy of every heading — its ancestor
chain followed by its own title. -/
def specHierarchies (hs : List (Nat × String)) : List (List String) :=
  hs.mapIdx (fun i p => specAncestorsRev (hs.take i).reverse p.1 ++ [p.2])

/-- "The fenced block appears whole inside this chunk". -/
def containsWhole (chunk : String) (block : List Char) : Prop :=
  ∃ pre post, chunk.data = pre ++ block ++ post

/-- C1 failing input, first paragraph: 100 characters of prose. -/
def c1P : String := String.mk (List.replicate 100 'p')

/-- C1 failing input, first half of the fenced block (1800 characters,
opens the fence). -/
def c1F1 : String := "```" ++ String.mk (List.replicate 1797 'x')

/-- C1 failing input, second half of the fenced block (200 characters,
closes the fence). -/
def c1F2 : String := String.mk (List.replicate 197 'y') ++ "```"

/-- C1 failing input: a 2104-character section whose fenced code block
contains a blank line. -/
def c1T : String := c1P ++ "\n\n" ++ c1F1 ++ "\n\n" ++ c1F2

/-- C5 counterexample document: `### C` follows the sibling-of-parent
heading `## A`. -/
def c5Doc : String := "## A\nx\n## B\n### C\ny"

end Chunker

/-! ## Theorems -/

/-! ### Dictionary lemmas -/

theorem dictFind_replace_ne {β : Type} (m : List (String × β)) (k k' : String)
    (v : β) (hk : k' ≠ k) :
    dictFind (m.map (fun p => if p.1 = k then (k, v) else p)) k' =
      dictFind m k' := by
  induction m with
  | nil => rfl
  | cons a t ih =>
    unfold dictFind at ih ⊢
    by_cases hak : a.1 = k
    · rw [List.map_cons, if_pos hak,
        List.find?_cons_of_neg _ (by simpa using fun hx => hk (id (Eq.symm hx))),
        List.find?_cons_of_neg _ (by
          simp only [decide_eq_true_eq]
          rw [hak]; exact fun hx => hk (id (Eq.symm hx)))]
      exact ih
    · by_cases hak' : a.1 = k'
      · rw [List.map_cons, if_neg hak,
          List.find?_cons_of_pos _ (by simpa using hak'),
          List.find?_cons_of_pos _ (by simpa using hak')]
      · rw [List.map_cons, if_neg hak,
          List.find?_cons_of_neg _ (by simpa using hak'),
          List.find?_cons_of_neg _ (by simpa using hak')]
        exact ih

theorem dictFind_replace_self {β : Type} (m : List (String × β)) (k : String)
    (v : β) (h : (m.find? (fun p => p.1 = k)).isSome) :
    dictFind (m.map (fun p => if p.1 = k then (k, v) else p)) k = some v := by
  induction m with
  | nil => simp [List.find?] at h
  | cons a t ih =>
    unfold dictFind at ih ⊢
    by_cases hak : a.1 = k
    · rw [List.map_cons, if_pos hak, List.find?_cons_of_pos _ (by simp)]
      rfl
    · have h' : (t.find? (fun p : String × β => p.1 = k)).isSome := by
        rw [List.find?_cons_of_neg _ (by simpa using hak)] at h
        exact h
      rw [List.map_cons, if_neg hak,
        List.find?_cons_of_neg _ (by simpa using hak)]
      exact ih h'

theorem dictFind_dictSet_self {β : Type} (m : List (String × β)) (k : String)
    (v : β) : dictFind (dictSet m k v) k = some v := by
  unfold dictSet
  by_cases h : (m.find? (fun p => p.1 = k)).isSome
  · simp only [h, if_true]
    exact dictFind_replace_self m k v h
  · simp only [h, if_false, Bool.false_eq_true]
    have hn : m.find? (fun p : String × β => decide (p.1 = k)) = none := by
      cases hx : m.find? (fun p : String × β => decide (p.1 = k)) with
      | none => rfl
      | some p => rw [hx] at h; simp at h
    unfold dictFind
    rw [List.find?_append, hn]
    simp [List.find?]

theorem dictFind_dictSet_ne {β : Type} (m : List (String × β)) (k k' : String)
    (v : β) (hk : k' ≠ k) : dictFind (dictSet m k v) k' = dictFind m k' := by
  unfold dictSet
  by_cases h : (m.find? (fun p => p.1 = k)).isSome
  · simp only [h, if_true]
    exact dictFind_replace_ne m k k' v hk
  · simp only [h, if_false, Bool.false_eq_true]
    unfold dictFind
    rw [List.find?_append,
      List.find?_cons_of_neg _ (by simpa using fun hx => hk (id (Eq.symm hx)))]
    cases m.find? (fun p : String × β => decide (p.1 = k')) <;> simp [List.find?]

theorem length_dictSet {β : Type} (m : List (String × β)) (k : String) (v : β) :
    (dictSet m k v).length =
      if (dictFind m k).isSome then m.length else m.length + 1 := by
  unfold dictSet dictFind
  by_cases h : (m.find? (fun p => p.1 = k)).isSome
  · simp [h]
  · simp [h]

namespace SQLiteStore

/-! ### Upsert batch lemmas (claims C2, C9, C10) -/

theorem lookupRow_upsert_self (s : Store) (i : String) (d : StoredDoc) :
    lookupRow (upsertRow s i d) i = some d :=
  dictFind_dictSet_self s i d

theorem lookupRow_upsert_ne (s : Store) (i j : String) (d : StoredDoc)
    (h : j ≠ i) : lookupRow (upsertRow s i d) j = lookupRow s j :=
  dictFind_dictSet_ne s i j d h

theorem length_upsert (s : Store) (i : String) (d : StoredDoc) :
    (upsertRow s i d).length =
      if (lookupRow s i).isSome then s.length else s.length + 1 :=
  length_dictSet s i d

theorem applyWrites_cons (s : Store) (k : String) (d : StoredDoc)
    (w : List (String × StoredDoc)) :
    applyWrites s ((k, d) :: w) = applyWrites (upsertRow s k d) w := rfl

theorem lookupRow_applyWrites_not_mem (w : List (String × StoredDoc))
    (i : String) (h : i ∉ w.map Prod.fst) :
    ∀ s, lookupRow (applyWrites s w) i = lookupRow s i := by
  induction w with
  | nil => intro s; rfl
  | cons p rest ih =>
    intro s
    simp only [List.map_cons, List.mem_cons] at h
    push_neg at h
    rw [show applyWrites s (p :: rest) = applyWrites (upsertRow s p.1 p.2) rest from rfl,
      ih (fun hx => h.2 hx), lookupRow_upsert_ne _ _ _ _ h.1]

theorem lookupRow_applyWrites_mem (w : List (String × StoredDoc))
    (hnd : (w.map Prod.fst).Nodup) (i : String) (d : StoredDoc)
    (hmem : (i, d) ∈ w) : ∀ s, lookupRow (applyWrites s w) i = some d := by
  induction w with
  | nil => cases hmem
  | cons p rest ih =>
    intro s
    simp only [List.map_cons, List.nodup_cons] at hnd
    rcases List.mem_cons.mp hmem with heq | htail
    · subst heq
      rw [show applyWrites s ((i, d) :: rest) = applyWrites (upsertRow s i d) rest from rfl,
        lookupRow_applyWrites_not_mem rest i hnd.1, lookupRow_upsert_self]
    · exact ih hnd.2 htail _

theorem applyWrites_preserves (w : List (String × StoredDoc)) :
    ∀ s, (∀ p ∈ w, lookupRow s p.1 = some p.2) →
      (applyWrites s w).length = s.length ∧
        ∀ j, lookupRow (applyWrites s w) j = lookupRow s j := by
  induction w with
  | nil => intro s _; exact ⟨rfl, fun _ => rfl⟩
  | cons p rest ih =>
    intro s h
    have hp : lookupRow s p.1 = some p.2 := h p (List.mem_cons_self _ _)
    have hlen : (upsertRow s p.1 p.2).length = s.length := by
      rw [length_upsert, hp]; simp
    have hlook : ∀ j, lookupRow (upsertRow s p.1 p.2) j = lookupRow s j := by
      intro j
      by_cases hj : j = p.1
      · subst hj; rw [lookupRow_upsert_self, hp]
      · exact lookupRow_upsert_ne _ _ _ _ hj
    have hrest : ∀ q ∈ rest, lookupRow (upsertRow s p.1 p.2) q.1 = some q.2 := by
      intro q hq
      rw [hlook q.1]; exact h q (List.mem_cons_of_mem _ hq)
    rcases ih (upsertRow s p.1 p.2) hrest with ⟨hl, hk⟩
    refine ⟨?_, ?_⟩
    · rw [show applyWrites s (p :: rest) = applyWrites (upsertRow s p.1 p.2) rest from rfl,
        hl, hlen]
    · intro j
      rw [show applyWrites s (p :: rest) = applyWrites (upsertRow s p.1 p.2) rest from rfl,
        hk j, hlook j]

theorem addLoop_eq_applyWrites (pairs : List (Chunk × List ℚ)) :
    ∀ (seen : List String) (s : Store),
      addLoop s pairs seen = applyWrites s (writesOf pairs seen) := by
  induction pairs with
  | nil => intro seen s; rfl
  | cons p rest ih =>
    intro seen s
    rcases p with ⟨c, e⟩
    by_cases hmem : chunkId c ∈ seen
    · simp [addLoop, writesOf, hmem, ih]
    · simp [addLoop, writesOf, hmem, ih, applyWrites_cons]

theorem writesOf_keys (pairs : List (Chunk × List ℚ)) :
    ∀ seen : List String,
      ((writesOf pairs seen).map Prod.fst).Nodup ∧
        ∀ k ∈ (writesOf pairs seen).map Prod.fst, k ∉ seen := by
  induction pairs with
  | nil => intro seen; simp [writesOf]
  | cons p rest ih =>
    intro seen
    rcases p with ⟨c, e⟩
    by_cases hmem : chunkId c ∈ seen
    · simpa [writesOf, hmem] using ih seen
    · rcases ih (chunkId c :: seen) with ⟨hnd, hfresh⟩
      constructor
      · simp only [writesOf, hmem, if_false, List.map_cons, List.nodup_cons,
          Bool.false_eq_true]
        exact ⟨fun hx => (hfresh _ hx) (List.mem_cons_self _ _), hnd⟩
      · intro k hk
        simp only [writesOf, hmem, if_false, List.map_cons, List.mem_cons,
          Bool.false_eq_true] at hk
        rcases hk with rfl | hk
        · exact hmem
        · exact fun hx => (hfresh _ hk) (List.mem_cons_of_mem _ hx)

/-- C2: upsert is idempotent — a second identical `add` leaves `count()` and
every per-id stored row unchanged. -/
theorem C2_add_idempotent (s : Store) (cs : List Chunk) (es : List (List ℚ))
    (s₁ s₂ : Store) (h₁ : add s cs es = .ok s₁) (h₂ : add s₁ cs es = .ok s₂) :
    count s₂ = count s₁ ∧ ∀ i, lookupRow s₂ i = lookupRow s₁ i := by
  unfold add at h₁ h₂
  by_cases hcs : cs = []
  · subst hcs
    simp only [if_true] at h₁ h₂
    cases h₁; cases h₂
    exact ⟨rfl, fun _ => rfl⟩
  · by_cases hlen : cs.length ≠ es.length
    · simp [hcs, hlen] at h₁
    · simp only [hcs, hlen, if_false, if_neg, ite_false] at h₁ h₂
      have e₁ : s₁ = applyWrites s (writesOf (cs.zip es) []) := by
        cases h₁; exact addLoop_eq_applyWrites _ _ _
      have e₂ : s₂ = applyWrites s₁ (writesOf (cs.zip es) []) := by
        cases h₂; exact addLoop_eq_applyWrites _ _ _
      have hnd := (writesOf_keys (cs.zip es) []).1
      have hval : ∀ p ∈ writesOf (cs.zip es) [], lookupRow s₁ p.1 = some p.2 := by
        intro p hp
        rw [e₁]
        exact lookupRow_applyWrites_mem _ hnd p.1 p.2 (by simpa using hp) s
      rcases applyWrites_preserves (writesOf (cs.zip es) []) s₁ hval with ⟨hl, hk⟩
      rw [e₂]
      exact ⟨hl, hk⟩

/-- C2 witness: a concrete batch added twice to the empty store. -/
theorem C2_add_idempotent_witness :
    count (addLoop (addLoop [] ([(⟨"doc",
        [("source_url", MetaVal.str "u"), ("hierarchy", MetaVal.strList ["A"])]⟩ :
        Chunk)].zip [[(1 : ℚ)]]) []) ([(⟨"doc",
        [("source_url", MetaVal.str "u"), ("hierarchy", MetaVal.strList ["A"])]⟩ :
        Chunk)].zip [[(1 : ℚ)]]) []) =
      count (addLoop [] ([(⟨"doc",
        [("source_url", MetaVal.str "u"), ("hierarchy", MetaVal.strList ["A"])]⟩ :
        Chunk)].zip [[(1 : ℚ)]]) []) ∧
    ∀ i, lookupRow (addLoop (addLoop [] ([(⟨"doc",
        [("source_url", MetaVal.str "u"), ("hierarchy", MetaVal.strList ["A"])]⟩ :
        Chunk)].zip [[(1 : ℚ)]]) []) ([(⟨"doc",
        [("source_url", MetaVal.str "u"), ("hierarchy", MetaVal.strList ["A"])]⟩ :
        Chunk)].zip [[(1 : ℚ)]]) []) i =
      lookupRow (addLoop [] ([(⟨"doc",
        [("source_url", MetaVal.str "u"), ("hierarchy", MetaVal.strList ["A"])]⟩ :
        Chunk)].zip [[(1 : ℚ)]]) []) i :=
  C2_add_idempotent []
    [(⟨"doc", [("source_url", MetaVal.str "u"),
       ("hierarchy", MetaVal.strList ["A"])]⟩ : Chunk)]
    [[(1 : ℚ)]] _ _ rfl rfl

/-- Lookup of a seen id is unchanged by the rest of the loop. -/
theorem addLoop_lookup_seen (pairs : List (Chunk × List ℚ)) (i : String) :
    ∀ (seen : List String) (s : Store), i ∈ seen →
      lookupRow (addLoop s pairs seen) i = lookupRow s i := by
  intro seen s hseen
  rw [addLoop_eq_applyWrites]
  refine lookupRow_applyWrites_not_mem _ _ ?_ s
  intro hmem
  exact (writesOf_keys pairs seen).2 i hmem hseen

theorem addLoop_cons (s : Store) (c : Chunk) (e : List ℚ)
    (rest : List (Chunk × List ℚ)) (seen : List String) :
    addLoop s ((c, e) :: rest) seen =
      if chunkId c ∈ seen then addLoop s rest seen
      else addLoop (upsertRow s (chunkId c) (mkDoc c e)) rest (chunkId c :: seen) :=
  rfl

theorem addLoop_first_write (pairs : List (Chunk × List ℚ)) (i : String)
    (c : Chunk) (e : List ℚ) :
    ∀ (seen : List String) (s : Store), i ∉ seen →
      pairs.find? (fun p => chunkId p.1 = i) = some (c, e) →
      lookupRow (addLoop s pairs seen) i = some (mkDoc c e) := by
  induction pairs with
  | nil => intro seen s _ hfind; simp [List.find?] at hfind
  | cons p rest ih =>
    intro seen s hseen hfind
    rcases p with ⟨c₀, e₀⟩
    by_cases hid : chunkId c₀ = i
    · rw [List.find?_cons_of_pos _ (by simpa using hid)] at hfind
      obtain ⟨hc, he⟩ : c₀ = c ∧ e₀ = e := by
        have hx := Option.some.inj hfind
        exact ⟨congrArg Prod.fst hx, congrArg Prod.snd hx⟩
      subst hc; subst he
      have hns : chunkId c₀ ∉ seen := by rw [hid]; exact hseen
      rw [addLoop_cons, if_neg hns,
        addLoop_lookup_seen rest i (chunkId c₀ :: seen) _
          (by rw [hid]; exact List.mem_cons_self _ _),
        hid, lookupRow_upsert_self]
    · rw [List.find?_cons_of_neg _ (by simpa using hid)] at hfind
      by_cases hmem : chunkId c₀ ∈ seen
      · rw [addLoop_cons, if_pos hmem]
        exact ih seen s hseen hfind
      · rw [addLoop_cons, if_neg hmem]
        refine ih (chunkId c₀ :: seen) _ ?_ hfind
        intro hx
        rcases List.mem_cons.mp hx with hx | hx
        · exact hid hx.symm
        · exact hseen hx

/-- C9: within a batch, the first chunk with a given id wins — its embedding
and metadata are stored, later duplicates are skipped. -/
theorem C9_first_occurrence_wins (s : Store) (cs : List Chunk)
    (es : List (List ℚ)) (s' : Store) (h : add s cs es = .ok s') (i : String)
    (c : Chunk) (e : List ℚ)
    (hfind : (cs.zip es).find? (fun p => chunkId p.1 = i) = some (c, e)) :
    lookupRow s' i = some (mkDoc c e) := by
  unfold add at h
  by_cases hcs : cs = []
  · subst hcs; simp [List.find?] at hfind
  · by_cases hlen : cs.length ≠ es.length
    · simp [hcs, hlen] at h
    · simp only [hcs, hlen, if_false, if_neg, ite_false] at h
      cases h
      exact addLoop_first_write (cs.zip es) i c e [] s (by simp) hfind

/-- C9 witness: two chunks with the same id and different embeddings — the
stored row keeps the first embedding. -/
theorem C9_first_occurrence_wins_witness :
    lookupRow (addLoop [] ([(⟨"doc", [("source_url", MetaVal.str "u")]⟩ : Chunk),
        (⟨"doc", [("source_url", MetaVal.str "u")]⟩ : Chunk)].zip
        [[(1 : ℚ)], [(2 : ℚ)]]) []) "u:doc" =
      some (mkDoc ⟨"doc", [("source_url", MetaVal.str "u")]⟩ [(1 : ℚ)]) ∧
    (mkDoc ⟨"doc", [("source_url", MetaVal.str "u")]⟩ [(1 : ℚ)]).embedding ≠
      (mkDoc ⟨"doc", [("source_url", MetaVal.str "u")]⟩ [(2 : ℚ)]).embedding :=
  ⟨C9_first_occurrence_wins []
      [(⟨"doc", [("source_url", MetaVal.str "u")]⟩ : Chunk),
       (⟨"doc", [("source_url", MetaVal.str "u")]⟩ : Chunk)]
      [[(1 : ℚ)], [(2 : ℚ)]] _ rfl "u:doc"
      ⟨"doc", [("source_url", MetaVal.str "u")]⟩ [(1 : ℚ)] (by decide),
    by decide⟩

/-- C10: `add` with an empty chunk list returns immediately and leaves the
store unchanged, for every embeddings list (the length check is never
reached). -/
theorem C10_add_empty_chunks_noop (s : Store) (es : List (List ℚ)) :
    add s [] es = .ok s := by
  simp [add]

/-! ### Score-bound lemmas (claim C3) -/

theorem mem_insertByKeyDesc {α : Type} (key : α → ℚ) (x y : α) (l : List α)
    (h : y ∈ insertByKeyDesc key x l) : y = x ∨ y ∈ l := by
  induction l with
  | nil => simpa [insertByKeyDesc] using h
  | cons a t ih =>
    unfold insertByKeyDesc at h
    by_cases hc : key a ≤ key x
    · rw [if_pos hc] at h
      rcases List.mem_cons.mp h with h | h
      · exact Or.inl h
      · exact Or.inr h
    · rw [if_neg hc] at h
      rcases List.mem_cons.mp h with h | h
      · exact Or.inr (h ▸ List.mem_cons_self _ _)
      · rcases ih h with h | h
        · exact Or.inl h
        · exact Or.inr (List.mem_cons_of_mem _ h)

theorem mem_sortByKeyDesc {α : Type} (key : α → ℚ) (y : α) (l : List α)
    (h : y ∈ sortByKeyDesc key l) : y ∈ l := by
  induction l with
  | nil => exact h
  | cons a t ih =>
    rcases mem_insertByKeyDesc key a y _ h with h | h
    · exact h ▸ List.mem_cons_self _ _
    · exact List.mem_cons_of_mem _ (ih h)

theorem mem_dictSet {β : Type} (m : List (String × β)) (k : String) (v : β)
    (p : String × β) (h : p ∈ dictSet m k v) : p = (k, v) ∨ p ∈ m := by
  unfold dictSet at h
  by_cases hs : (m.find? (fun q => q.1 = k)).isSome
  · rw [if_pos hs] at h
    rcases List.mem_map.mp h with ⟨q, hq, hpq⟩
    by_cases hqk : q.1 = k
    · rw [if_pos hqk] at hpq; exact Or.inl hpq.symm
    · rw [if_neg hqk] at hpq; exact Or.inr (hpq ▸ hq)
  · rw [if_neg hs] at h
    rcases List.mem_append.mp h with h | h
    · exact Or.inr h
    · exact Or.inl (by simpa using h)

theorem mem_dictModify {β : Type} (m : List (String × β)) (k : String)
    (f : β → β) (p : String × β) (h : p ∈ dictModify m k f) :
    (∃ q ∈ m, p = (k, f q.2)) ∨ p ∈ m := by
  unfold dictModify at h
  rcases List.mem_map.mp h with ⟨q, hq, hpq⟩
  by_cases hqk : q.1 = k
  · rw [if_pos hqk] at hpq; exact Or.inl ⟨q, hq, hpq.symm⟩
  · rw [if_neg hqk] at hpq; exact Or.inr (hpq ▸ hq)

theorem semLoop_ranks (rows : List DocRow) :
    ∀ (r : Nat) (m : List (String × ScoreEntry)), 1 ≤ r →
      (∀ p ∈ m, ranksOk p.2) → ∀ p ∈ semLoop r rows m, ranksOk p.2 := by
  induction rows with
  | nil => intro r m _ hm p hp; exact hm p hp
  | cons row rest ih =>
    intro r m hr hm p hp
    refine ih (r + 1) _ (by omega) ?_ p hp
    intro q hq
    rcases mem_dictSet _ _ _ q hq with hq | hq
    · rw [hq]
      refine ⟨fun n hn => ?_, fun n hn => ?_⟩
      · simp only [semEntry, Option.some.injEq] at hn
        omega
      · simp [semEntry] at hn
    · exact hm q hq

theorem kwLoop_ranks (rows : List DocRow) :
    ∀ (r : Nat) (mts : List String) (m : List (String × ScoreEntry)),
      1 ≤ r → (∀ p ∈ m, ranksOk p.2) →
      ∀ p ∈ kwLoop r rows mts m, ranksOk p.2 := by
  induction rows with
  | nil => intro r mts m _ hm p hp; exact hm p hp
  | cons row rest ih =>
    intro r mts m hr hm p hp
    unfold kwLoop at hp
    refine ih (r + 1) mts _ (by omega) ?_ p hp
    intro q hq
    by_cases hpre : (dictFind m row.id).isSome
    · rw [if_pos hpre] at hq
      rcases mem_dictModify _ _ _ q hq with ⟨q', hq', hqe⟩ | hq
      · rw [hqe]
        have := hm q' hq'
        exact ⟨fun n hn => this.1 n hn, fun n hn => by
          simp at hn; omega⟩
      · exact hm q hq
    · rw [if_neg hpre] at hq
      rcases List.mem_append.mp hq with hq | hq
      · exact hm q hq
      · have : q = (row.id, kwEntry r row (row.id ∈ mts)) := by simpa using hq
        rw [this]
        exact ⟨fun n hn => by simp [kwEntry] at hn,
          fun n hn => by simp [kwEntry] at hn; omega⟩

theorem scoreOf_le (e : ScoreEntry) (h : ranksOk e) :
    scoreOf e ≤ 1 / (60 + 1) + 6 / 5 * 2 / (60 + 1) := by
  have hsem : (if pyTruthy e.semantic_rank then
      SEMANTIC_WEIGHT / (RRF_K + ((e.semantic_rank.getD 0 : Nat) : ℚ)) else 0)
      ≤ 1 / (60 + 1) := by
    cases hs : e.semantic_rank with
    | none => simp [pyTruthy]; norm_num
    | some n =>
      have hn : 1 ≤ n := h.1 n hs
      by_cases hz : pyTruthy (some n)
      · rw [if_pos hz]
        have : ((n : ℚ)) ≥ 1 := by exact_mod_cast hn
        have h61 : (60 : ℚ) + 1 ≤ 60 + (n : ℚ) := by linarith
        calc SEMANTIC_WEIGHT / (RRF_K + ((some n).getD 0 : Nat) : ℚ)
            = 1 / (60 + (n : ℚ)) := by simp [SEMANTIC_WEIGHT, RRF_K]
          _ ≤ 1 / (60 + 1) :=
            div_le_div_of_nonneg_left (by norm_num) (by norm_num) h61
      · rw [if_neg hz]; norm_num
  have hkw : (if pyTruthy e.keyword_rank then
      (KEYWORD_WEIGHT / (RRF_K + ((e.keyword_rank.getD 0 : Nat) : ℚ)))
        * (if e.section_match then SECTION_BOOST else 1) else 0)
      ≤ 6 / 5 * 2 / (60 + 1) := by
    cases hs : e.keyword_rank with
    | none => simp [pyTruthy]; norm_num
    | some n =>
      have hn : 1 ≤ n := h.2 n hs
      by_cases hz : pyTruthy (some n)
      · rw [if_pos hz]
        have hcast : ((n : ℚ)) ≥ 1 := by exact_mod_cast hn
        have h61 : (60 : ℚ) + 1 ≤ 60 + (n : ℚ) := by linarith
        have hdiv : KEYWORD_WEIGHT / (RRF_K + (n : ℚ)) ≤ (6 / 5 : ℚ) / (60 + 1) := by
          calc KEYWORD_WEIGHT / (RRF_K + (n : ℚ)) = (6 / 5 : ℚ) / (60 + (n : ℚ)) := by
                simp [KEYWORD_WEIGHT, RRF_K]
            _ ≤ (6 / 5 : ℚ) / (60 + 1) :=
                div_le_div_of_nonneg_left (by norm_num) (by norm_num) h61
        have hpos : (0 : ℚ) ≤ KEYWORD_WEIGHT / (RRF_K + (n : ℚ)) := by
          have : (0 : ℚ) < 60 + (n : ℚ) := by linarith
          simp only [KEYWORD_WEIGHT, RRF_K]
          positivity
        by_cases hb : e.section_match
        · rw [if_pos hb]
          simp only [SECTION_BOOST, Option.getD_some]
          calc KEYWORD_WEIGHT / (RRF_K + (n : ℚ)) * 2
              ≤ (6 / 5 : ℚ) / (60 + 1) * 2 := by linarith
            _ = 6 / 5 * 2 / (60 + 1) := by ring
        · rw [if_neg hb]
          simp only [Option.getD_some, mul_one]
          calc KEYWORD_WEIGHT / (RRF_K + (n : ℚ)) ≤ (6 / 5 : ℚ) / (60 + 1) := hdiv
            _ ≤ 6 / 5 * 2 / (60 + 1) := by norm_num
      · rw [if_neg hz]; norm_num
  calc scoreOf e ≤ 1 / (60 + 1) + 6 / 5 * 2 / (60 + 1) := by
        unfold scoreOf; exact add_le_add hsem hkw

theorem rankedSemantic_mem_score (rows : List DocRow) :
    ∀ (r₀ : Nat) (x : SearchResult), x ∈ rankedSemantic r₀ rows →
      ∃ n : Nat, r₀ ≤ n ∧ x.score = SEMANTIC_WEIGHT / (RRF_K + (n : ℚ)) := by
  induction rows with
  | nil => intro r₀ x hx; simp [rankedSemantic] at hx
  | cons row rest ih =>
    intro r₀ x hx
    rcases List.mem_cons.mp hx with hx | hx
    · exact ⟨r₀, le_refl _, by rw [hx]⟩
    · rcases ih (r₀ + 1) x hx with ⟨n, hn, hs⟩
      exact ⟨n, by omega, hs⟩

/-- C3: every result of `SQLiteStore.search` has score at most
`1/(60+1) + 1.2·2/(60+1)`: semantic and boosted-keyword RRF contributions are
maximal at rank 1. -/
theorem C3_search_score_bound (semRows kwRows : List DocRow) (q : String)
    (k : Nat) (so : Bool) (r : SearchResult)
    (hr : r ∈ search semRows kwRows q k so) :
    r.score ≤ 1 / (60 + 1) + 6 / 5 * 2 / (60 + 1) := by
  unfold search at hr
  by_cases hbranch : (so || pyStrip q = "") = true
  · rw [if_pos hbranch] at hr
    rcases rankedSemantic_mem_score _ 1 r hr with ⟨n, hn, hs⟩
    have hcast : (1 : ℚ) ≤ (n : ℚ) := by exact_mod_cast hn
    have : r.score ≤ 1 / (60 + 1) := by
      rw [hs]
      simp only [SEMANTIC_WEIGHT, RRF_K]
      exact div_le_div_of_nonneg_left (by norm_num) (by norm_num) (by linarith)
    have hpos : (0 : ℚ) ≤ 6 / 5 * 2 / (60 + 1) := by norm_num
    linarith
  · rw [if_neg hbranch] at hr
    have hr' := List.take_subset _ _ hr
    have hr'' := mem_sortByKeyDesc _ _ _ hr'
    rcases List.mem_map.mp hr'' with ⟨p, hp, hrp⟩
    have hok : ranksOk p.2 := by
      refine kwLoop_ranks _ 1 _ _ (le_refl 1) ?_ p hp
      intro q' hq'
      exact semLoop_ranks semRows 1 [] (le_refl 1) (by intro x hx; cases hx) q' hq'
    rw [← hrp]
    exact scoreOf_le p.2 hok

/-- C3 witness: a concrete search result of a one-row store. -/
theorem C3_search_score_bound_witness :
    (⟨"c1", "u", "Setup", SEMANTIC_WEIGHT / (RRF_K + ((1 : Nat) : ℚ)), none,
      some 1, none⟩ : SearchResult).score ≤
      1 / (60 + 1) + 6 / 5 * 2 / (60 + 1) :=
  C3_search_score_bound [⟨"d1", "c1", some "u", some "Setup", none⟩] []
    "setup guide" 5 true
    ⟨"c1", "u", "Setup", SEMANTIC_WEIGHT / (RRF_K + ((1 : Nat) : ℚ)), none,
      some 1, none⟩
    (List.mem_cons_self _ _)

/-! ### Stop-word fallback lemmas (claim C4) -/

theorem findPhrasesAux_no_quote (l : List Char) (h : ∀ c ∈ l, c ≠ '"') :
    findPhrasesAux none l = ([], l) := by
  induction l with
  | nil => rfl
  | cons c rest ih =>
    have hc : c ≠ '"' := h c (List.mem_cons_self _ _)
    have ih' := ih (fun x hx => h x (List.mem_cons_of_mem _ hx))
    simp [findPhrasesAux, hc, ih']

theorem mem_pyStripList (l : List Char) (c : Char) (h : c ∈ pyStripList l) :
    c ∈ l := by
  unfold pyStripList at h
  rw [List.mem_reverse] at h
  have h1 := (List.dropWhile_suffix isPyWs).sublist.subset h
  rw [List.mem_reverse] at h1
  exact (List.dropWhile_suffix isPyWs).sublist.subset h1

theorem pySplitWsAux_all_ws (t : List Char) (ht : ∀ c ∈ t, isPyWs c) :
    ∀ cur, pySplitWsAux cur t = if cur = [] then [] else [cur.reverse] := by
  induction t with
  | nil => intro cur; rfl
  | cons c rest ih =>
    intro cur
    have hc : isPyWs c := ht c (List.mem_cons_self _ _)
    have ih' := ih (fun x hx => ht x (List.mem_cons_of_mem _ hx))
    by_cases hcur : cur = []
    · simp [pySplitWsAux, hc, hcur, ih' []]
    · simp [pySplitWsAux, hc, hcur, ih' []]

theorem pySplitWsAux_append_ws (t : List Char) (ht : ∀ c ∈ t, isPyWs c) :
    ∀ (l : List Char) (cur : List Char),
      pySplitWsAux cur (l ++ t) = pySplitWsAux cur l := by
  intro l
  induction l with
  | nil =>
    intro cur
    rw [List.nil_append, pySplitWsAux_all_ws t ht cur]
    rfl
  | cons c rest ih =>
    intro cur
    by_cases hc : isPyWs c
    · by_cases hcur : cur = []
      · simp [pySplitWsAux, hc, hcur, ih]
      · simp [pySplitWsAux, hc, hcur, ih]
    · simp [pySplitWsAux, hc, ih]

theorem pySplitWsAux_dropWhile (l : List Char) :
    pySplitWsAux [] (l.dropWhile isPyWs) = pySplitWsAux [] l := by
  induction l with
  | nil => rfl
  | cons c rest ih =>
    by_cases hc : isPyWs c
    · rw [List.dropWhile_cons_of_pos (by simpa using hc)]
      rw [ih]
      simp [pySplitWsAux, hc]
    · rw [List.dropWhile_cons_of_neg (by simpa using hc)]

theorem pySplitWs_strip (l : List Char) :
    pySplitWs (pyStripList l) = pySplitWs l := by
  unfold pySplitWs pyStripList
  have hdecomp : l.dropWhile isPyWs =
      ((l.dropWhile isPyWs).reverse.dropWhile isPyWs).reverse ++
        ((l.dropWhile isPyWs).reverse.takeWhile isPyWs).reverse := by
    have h := List.takeWhile_append_dropWhile (p := isPyWs)
      (l := (l.dropWhile isPyWs).reverse)
    calc l.dropWhile isPyWs
        = (l.dropWhile isPyWs).reverse.reverse := by rw [List.reverse_reverse]
      _ = ((l.dropWhile isPyWs).reverse.takeWhile isPyWs ++
            (l.dropWhile isPyWs).reverse.dropWhile isPyWs).reverse := by rw [h]
      _ = _ := by rw [List.reverse_append]
  have hws : ∀ c ∈ ((l.dropWhile isPyWs).reverse.takeWhile isPyWs).reverse,
      isPyWs c := by
    intro c hc
    rw [List.mem_reverse] at hc
    exact List.mem_takeWhile_imp hc
  calc pySplitWsAux [] ((l.dropWhile isPyWs).reverse.dropWhile isPyWs).reverse
      = pySplitWsAux []
          (((l.dropWhile isPyWs).reverse.dropWhile isPyWs).reverse ++
            ((l.dropWhile isPyWs).reverse.takeWhile isPyWs).reverse) := by
        rw [pySplitWsAux_append_ws _ hws]
    _ = pySplitWsAux [] (l.dropWhile isPyWs) := by rw [← hdecomp]
    _ = pySplitWsAux [] l := pySplitWsAux_dropWhile l

theorem parse_fts_query_empty (q : String)
    (hnq : ∀ c ∈ q.data, c ≠ '"')
    (htok : ∀ w ∈ pySplitWs q.data,
      (cleanWord w).length ≤ 1 ∨ String.mk (cleanWord w) ∈ STOP_WORDS) :
    parse_fts_query q = "" := by
  unfold parse_fts_query
  by_cases hq : pyStrip q = ""
  · rw [if_pos hq]
  · rw [if_neg hq]
    have hnq' : ∀ c ∈ (pyStrip q).data, c ≠ '"' := by
      intro c hc
      exact hnq c (mem_pyStripList q.data c hc)
    have hph : findPhrases (pyStrip q).data = ([], (pyStrip q).data) :=
      findPhrasesAux_no_quote _ hnq'
    rw [hph]
    have hterms : ftsTerms (pyStrip q).data = [] := by
      unfold ftsTerms
      rw [List.filterMap_eq_nil_iff]
      intro w hw
      have hw' : w ∈ pySplitWs q.data := by
        have : (pyStrip q).data = pyStripList q.data := rfl
        rw [this, pySplitWs_strip] at hw
        exact hw
      rcases htok w hw' with h | h
      · simp only [ite_eq_right_iff]
        intro hcond
        omega
      · simp only [ite_eq_right_iff]
        intro hcond
        exact absurd h hcond.2
    simp [hterms, ftsPhraseParts]

theorem dictSet_absent {β : Type} (m : List (String × β)) (k : String) (v : β)
    (h : dictFind m k = none) : dictSet m k v = m ++ [(k, v)] := by
  unfold dictSet
  have : m.find? (fun p => p.1 = k) = none := by
    unfold dictFind at h
    cases hx : m.find? (fun p : String × β => decide (p.1 = k)) with
    | none => rfl
    | some p => rw [hx] at h; simp at h
  rw [this]
  rfl

theorem dictFind_append_single_none {β : Type} (m : List (String × β))
    (k j : String) (v : β) (hm : dictFind m j = none) (hjk : j ≠ k) :
    dictFind (m ++ [(k, v)]) j = none := by
  unfold dictFind at hm ⊢
  rw [List.find?_append]
  have h1 : m.find? (fun p : String × β => decide (p.1 = j)) = none := by
    cases hx : m.find? (fun p : String × β => decide (p.1 = j)) with
    | none => rfl
    | some p => rw [hx] at hm; simp at hm
  rw [h1, List.find?_cons_of_neg _ (by simpa using fun hx => hjk (id (Eq.symm hx)))]
  rfl

theorem semLoop_fresh (rows : List DocRow) :
    ∀ (r : Nat) (m : List (String × ScoreEntry)),
      (rows.map DocRow.id).Nodup →
      (∀ row ∈ rows, dictFind m row.id = none) →
      semLoop r rows m = m ++ rowsEntries r rows := by
  induction rows with
  | nil => intro r m _ _; simp [semLoop, rowsEntries]
  | cons row rest ih =>
    intro r m hnd hfresh
    have hhead : dictFind m row.id = none := hfresh row (List.mem_cons_self _ _)
    rw [show semLoop r (row :: rest) m =
        semLoop (r + 1) rest (dictSet m row.id (semEntry r row)) from rfl,
      dictSet_absent m row.id _ hhead]
    simp only [List.map_cons, List.nodup_cons] at hnd
    have hfresh' : ∀ row' ∈ rest,
        dictFind (m ++ [(row.id, semEntry r row)]) row'.id = none := by
      intro row' hr'
      refine dictFind_append_single_none m row.id row'.id _
        (hfresh row' (List.mem_cons_of_mem _ hr')) ?_
      intro hx
      exact hnd.1 (hx ▸ List.mem_map_of_mem DocRow.id hr')
    rw [ih (r + 1) _ hnd.2 hfresh']
    rw [show rowsEntries r (row :: rest) =
        (row.id, semEntry r row) :: rowsEntries (r + 1) rest from rfl]
    simp

theorem map_resultOfEntry_rowsEntries (rows : List DocRow) :
    ∀ r : Nat, 1 ≤ r →
      (rowsEntries r rows).map (fun p => resultOfEntry p.2) =
        rankedSemantic r rows := by
  induction rows with
  | nil => intro r _; rfl
  | cons row rest ih =>
    intro r hr
    rw [show rowsEntries r (row :: rest) =
        (row.id, semEntry r row) :: rowsEntries (r + 1) rest from rfl]
    rw [List.map_cons, ih (r + 1) (by omega)]
    rw [show rankedSemantic r (row :: rest) =
        ({ content := row.content, source_url := row.source_url.getD "",
           sect := row.sect.getD "",
           score := SEMANTIC_WEIGHT / (RRF_K + (r : ℚ)),
           metadata := parseMeta row.metadata, semantic_rank := some r,
           keyword_rank := none } : SearchResult) :: rankedSemantic (r + 1) rest
        from rfl]
    have hr0 : r ≠ 0 := by omega
    simp [resultOfEntry, semEntry, scoreOf, pyTruthy, hr0]

theorem rankedSemantic_take (rows : List DocRow) :
    ∀ (r k : Nat),
      rankedSemantic r (rows.take k) = (rankedSemantic r rows).take k := by
  induction rows with
  | nil => intro r k; simp [rankedSemantic]
  | cons row rest ih =>
    intro r k
    cases k with
    | zero => rfl
    | succ k' =>
      rw [List.take_succ_cons,
        show rankedSemantic r (row :: rest.take k') =
          _ :: rankedSemantic (r + 1) (rest.take k') from rfl,
        show rankedSemantic r (row :: rest) =
          _ :: rankedSemantic (r + 1) rest from rfl,
        List.take_succ_cons, ih (r + 1) k']

theorem sortByKeyDesc_of_sorted {α : Type} (key : α → ℚ) (l : List α)
    (h : l.Pairwise (fun a b => key b ≤ key a)) : sortByKeyDesc key l = l := by
  induction l with
  | nil => rfl
  | cons a t ih =>
    rcases List.pairwise_cons.mp h with ⟨ha, ht⟩
    rw [show sortByKeyDesc key (a :: t) =
        insertByKeyDesc key a (sortByKeyDesc key t) from rfl, ih ht]
    cases t with
    | nil => rfl
    | cons b bs =>
      rw [show insertByKeyDesc key a (b :: bs) =
          if key b ≤ key a then a :: b :: bs else b :: insertByKeyDesc key a bs
          from rfl,
        if_pos (ha b (List.mem_cons_self _ _))]

theorem rankedSemantic_sorted (rows : List DocRow) :
    ∀ r : Nat,
      (rankedSemantic r rows).Pairwise (fun a b => b.score ≤ a.score) := by
  induction rows with
  | nil => intro r; simp [rankedSemantic]
  | cons row rest ih =>
    intro r
    rw [show rankedSemantic r (row :: rest) =
        ({ content := row.content, source_url := row.source_url.getD "",
           sect := row.sect.getD "",
           score := SEMANTIC_WEIGHT / (RRF_K + (r : ℚ)),
           metadata := parseMeta row.metadata, semantic_rank := some r,
           keyword_rank := none } : SearchResult) :: rankedSemantic (r + 1) rest
        from rfl]
    refine List.pairwise_cons.mpr ⟨?_, ih (r + 1)⟩
    intro y hy
    rcases rankedSemantic_mem_score rest (r + 1) y hy with ⟨n, hn, hs⟩
    rw [hs]
    simp only [SEMANTIC_WEIGHT, RRF_K]
    have hcast : ((r : ℚ)) ≤ (n : ℚ) := by exact_mod_cast (by omega : r ≤ n)
    have hpos : (0 : ℚ) < 60 + (r : ℚ) := by positivity
    exact div_le_div_of_nonneg_left (by norm_num) hpos (by linarith)

/-- C4: a non-empty query whose tokens are all stop words or single
characters (quote-free, so no phrase survives either) produces an empty FTS
query, and the hybrid search path returns exactly the semantic-only result
list. -/
theorem C4_stopword_query_falls_back_to_semantic (semRows kwRows : List DocRow)
    (q : String) (k : Nat) (hq : pyStrip q ≠ "")
    (hnq : ∀ c ∈ q.data, c ≠ '"')
    (htok : ∀ w ∈ pySplitWs q.data,
      (cleanWord w).length ≤ 1 ∨ String.mk (cleanWord w) ∈ STOP_WORDS)
    (hids : (semRows.map DocRow.id).Nodup) :
    search semRows kwRows q k false = search semRows kwRows q k true := by
  have hparse : parse_fts_query q = "" := parse_fts_query_empty q hnq htok
  have h2 : search semRows kwRows q k true = rankedSemantic 1 (semRows.take k) := by
    simp [search]
  have h1 : search semRows kwRows q k false =
      (sortByKeyDesc SearchResult.score
        ((semLoop 1 semRows []).map (fun p => resultOfEntry p.2))).take k := by
    unfold search
    rw [if_neg (by simp [hq])]
    simp only [hparse, if_pos rfl, ite_true]
    rfl
  rw [h1, h2]
  rw [semLoop_fresh semRows 1 [] hids (by intro row _; rfl), List.nil_append,
    map_resultOfEntry_rowsEntries semRows 1 (le_refl 1),
    sortByKeyDesc_of_sorted _ _ (rankedSemantic_sorted semRows 1),
    rankedSemantic_take semRows 1 k]

/-- C4 witness: the query "How to a b?" (stop words and single characters
only) against a two-row store with a would-be keyword hit. -/
theorem C4_stopword_query_falls_back_to_semantic_witness :
    search [⟨"d1", "c1", some "u1", some "S1", none⟩,
            ⟨"d2", "c2", some "u2", some "S2", none⟩]
        [⟨"d9", "c9", some "u9", some "S9", none⟩] "How to a b?" 5 false =
      search [⟨"d1", "c1", some "u1", some "S1", none⟩,
            ⟨"d2", "c2", some "u2", some "S2", none⟩]
        [⟨"d9", "c9", some "u9", some "S9", none⟩] "How to a b?" 5 true :=
  C4_stopword_query_falls_back_to_semantic
    [⟨"d1", "c1", some "u1", some "S1", none⟩,
     ⟨"d2", "c2", some "u2", some "S2", none⟩]
    [⟨"d9", "c9", some "u9", some "S9", none⟩] "How to a b?" 5
    (by decide) (by decide) (by decide) (by decide)

end SQLiteStore

namespace QueryExpander

/-! ### Query expansion (claim C7) -/

/-- C7 counterexample: `expand` strips the query before returning it first,
so for `" hi "` the first element is `"hi"`, not the unmodified original. -/
theorem C7_expand_strips_original_counterexample :
    expand 3 " hi " .failure = ["hi"] ∧ "hi" ≠ " hi " :=
  ⟨by decide, by decide⟩

/-- C7 amended: the first element of `expand` is the original query when it
is empty or whitespace-only, and the *stripped* original otherwise; at most
`num_variations` variants follow. -/
theorem C7_expand_head_stripped_and_bounded (n : Nat) (q : String)
    (o : LLMOutcome) :
    (expand n q o).head? = some (if pyStrip q = "" then q else pyStrip q) ∧
      (expand n q o).length ≤ n + 1 := by
  unfold expand
  by_cases hg : q = "" ∨ pyStrip q = ""
  · rw [if_pos hg]
    have hstrip : pyStrip q = "" := by
      rcases hg with hg | hg
      · rw [hg]; rfl
      · exact hg
    rw [if_pos hstrip]
    exact ⟨rfl, by simp⟩
  · rw [if_neg hg]
    push_neg at hg
    rw [if_neg hg.2]
    cases o with
    | failure => exact ⟨rfl, by simp⟩
    | response text =>
      refine ⟨?_, ?_⟩
      · show (List.take (n + 1) (pyStrip q ::
          List.filterMap (fun v =>
            if v ≠ "" ∧ pyStrip v ≠ "" ∧ pyStrip v ≠ pyStrip q
            then some (pyStrip v) else none) (parse_response text))).head? =
          some (pyStrip q)
        rw [List.take_succ_cons]
        rfl
      · show (List.take (n + 1) (pyStrip q ::
          List.filterMap (fun v =>
            if v ≠ "" ∧ pyStrip v ≠ "" ∧ pyStrip v ≠ pyStrip q
            then some (pyStrip v) else none) (parse_response text))).length ≤ n + 1
        exact List.length_take_le _ _

end QueryExpander

namespace HybridSearch

/-! ### Hybrid searcher (claim C8) -/

/-- C8: an empty or whitespace-only query makes `HybridSearch.search` return
the empty list at once (no embedding or store call is reached; the model is
total, so no error path exists past the guard). -/
theorem C8_empty_query_returns_nil (sem pool : List StoreSearchResult)
    (q : String) (k : Nat) (hq : pyStrip q = "") :
    search sem pool q k = [] := by
  unfold search
  rw [if_pos (Or.inr hq)]

/-- C8 witness: a whitespace query against a non-empty store. -/
theorem C8_empty_query_returns_nil_witness :
    search [⟨"doc", "u", "S", 0, none⟩] [⟨"doc2", "u2", "S2", 0, none⟩]
      "  " 5 = [] :=
  C8_empty_query_returns_nil [⟨"doc", "u", "S", 0, none⟩]
    [⟨"doc2", "u2", "S2", 0, none⟩] "  " 5 (by decide)

end HybridSearch

namespace Chunker

/-! ### Chunker hierarchy (claim C5) -/

/-- C5 counterexample: on `c5Doc` the chunker's hierarchies keep the earlier
sibling-of-parent heading `A` in the `### C` chunk, while the ancestor chain
of `### C` is only `B, C`. -/
theorem C5_hierarchy_not_ancestors_counterexample :
    (chunkDoc c5Doc).map chunkHierarchy = [["A"], ["B"], ["A", "B", "C"]] ∧
      specHierarchies (headingLT c5Doc) = [["A"], ["B"], ["B", "C"]] ∧
      (chunkDoc c5Doc).map chunkHierarchy ≠ specHierarchies (headingLT c5Doc) :=
  ⟨by decide, by decide, by decide⟩

theorem chunkHierarchy_mkChunkMeta (x : String) (a b st : Option String)
    (h : List String) (e : Bool) :
    chunkHierarchy ⟨x, mkChunkMeta a b st h e⟩ = h := rfl

theorem sectionChunks_hierarchy (su pt : Option String) (s : SectionRec)
    (c : Chunk) (hc : c ∈ sectionChunks su pt s) :
    chunkHierarchy c = s.hierarchy := by
  unfold sectionChunks at hc
  by_cases hsize : s.content.length ≤ TARGET_MAX_CHARS
  · rw [if_pos hsize] at hc
    have : c = ⟨s.content, mkChunkMeta su pt
        (s.header.bind (fun h => (parseHeaderLine h).map (fun lt => lt.2)))
        s.hierarchy (has_code_blocks s.content)⟩ := by simpa using hc
    rw [this, chunkHierarchy_mkChunkMeta]
  · rw [if_neg hsize] at hc
    rw [List.mapIdx_eq_enum_map] at hc
    rcases List.mem_map.mp hc with ⟨⟨i, sub⟩, _, hceq⟩
    rw [← hceq]
    simp only [Function.uncurry]
    rw [chunkHierarchy_mkChunkMeta]

theorem goSections_mem (working : String) (s : SectionRec) :
    ∀ (rest done : List HeaderM),
      s ∈ goSections working rest (done.map HeaderM.text) →
      ∃ i, ∃ h : i < rest.length,
        s.hierarchy = extract_hierarchy (some (rest.get ⟨i, h⟩).text)
          ((done ++ rest.take i).map HeaderM.text) := by
  intro rest
  induction rest with
  | nil => intro done hs; cases hs
  | cons h₀ rest' ih =>
    intro done hs
    rcases List.mem_cons.mp hs with hs | hs
    · refine ⟨0, Nat.succ_pos _, ?_⟩
      rw [hs]
      have hd : (done ++ List.take 0 (h₀ :: rest')) = done := by
        rw [List.take_zero, List.append_nil]
      rw [hd]
      rfl
    · have hs' : s ∈ goSections working rest' ((done ++ [h₀]).map HeaderM.text) := by
        rw [List.map_append]
        exact hs
      rcases ih (done ++ [h₀]) hs' with ⟨i, hi, hh⟩
      refine ⟨i + 1, Nat.succ_lt_succ hi, ?_⟩
      rw [hh]
      show extract_hierarchy (some (rest'.get ⟨i, hi⟩).text)
          (((done ++ [h₀]) ++ rest'.take i).map HeaderM.text) =
        extract_hierarchy (some (rest'.get ⟨i, hi⟩).text)
          ((done ++ (h₀ :: rest'.take i)).map HeaderM.text)
      rw [List.append_assoc]
      rfl

theorem headersOf_parse (w : String) (h : HeaderM) (hmem : h ∈ headersOf w) :
    parseHeaderLine h.text = some (h.level, h.title) := by
  unfold headersOf at hmem
  rcases List.mem_filterMap.mp hmem with ⟨p, _, hp⟩
  cases hparse : parseHeaderLine p.2 with
  | none => rw [hparse] at hp; cases hp
  | some lt =>
    rw [hparse] at hp
    have hph : (⟨p.1, lt.1, lt.2, p.2⟩ : HeaderM) = h := by simpa using hp
    rw [← hph]
    exact hparse

theorem filter_map_smaller (pre : List HeaderM) (lvl : Nat) :
    ((pre.map (fun h => (h.level, h.title))).filter (fun q => q.1 < lvl)).map
        Prod.snd =
      pre.filterMap (fun h => if h.level < lvl then some h.title else none) := by
  induction pre with
  | nil => rfl
  | cons h t ih =>
    rw [List.map_cons]
    by_cases hl : h.level < lvl
    · rw [List.filter_cons_of_pos (by simpa using hl),
        List.filterMap_cons_some (by rw [if_pos hl]),
        List.map_cons, ih]
    · rw [List.filter_cons_of_neg (by simpa using hl),
        List.filterMap_cons_none (by rw [if_neg hl]), ih]

theorem extract_hierarchy_eval (cur : HeaderM) (pre : List HeaderM)
    (hcur : parseHeaderLine cur.text = some (cur.level, cur.title))
    (hpre : ∀ h ∈ pre, parseHeaderLine h.text = some (h.level, h.title)) :
    extract_hierarchy (some cur.text) (pre.map HeaderM.text) =
      ((pre.map (fun h => (h.level, h.title))).filter
        (fun q => q.1 < cur.level)).map Prod.snd ++ [cur.title] := by
  have hne : cur.text ≠ "" := by
    intro heq
    rw [heq] at hcur
    rw [show parseHeaderLine "" = none from rfl] at hcur
    cases hcur
  show (if cur.text = "" then [] else
      match parseHeaderLine cur.text with
      | none => []
      | some (lvl, title) =>
        ((pre.map HeaderM.text).filterMap (fun ph =>
          match parseHeaderLine ph with
          | some (plvl, ptitle) => if plvl < lvl then some ptitle else none
          | none => none)) ++ [title]) = _
  rw [if_neg hne, hcur]
  show (List.filterMap (fun ph =>
      match parseHeaderLine ph with
      | some (plvl, ptitle) => if plvl < cur.level then some ptitle else none
      | none => none) (pre.map HeaderM.text)) ++ [cur.title] = _
  rw [List.filterMap_map, filter_map_smaller]
  congr 1
  refine List.filterMap_congr ?_
  intro h hh
  rw [Function.comp_apply, hpre h hh]

/-- C5 amended: every chunk's hierarchy is either empty (intro / no-heading
chunks) or the titles of **all** earlier H2/H3 headings of strictly smaller
level — ancestors and non-ancestors alike, in document order — followed by
the chunk's own section title. -/
theorem C5_hierarchy_all_preceding_smaller (content : String) (c : Chunk)
    (hc : c ∈ chunkDoc content) :
    chunkHierarchy c = [] ∨
      ∃ i, ∃ h : i < (headingLT content).length,
        chunkHierarchy c =
          (((headingLT content).take i).filter
            (fun q => q.1 < ((headingLT content).get ⟨i, h⟩).1)).map Prod.snd
          ++ [((headingLT content).get ⟨i, h⟩).2] := by
  unfold chunkDoc at hc
  rcases List.mem_flatMap.mp hc with ⟨s, hsmem, hcs⟩
  have hhier := sectionChunks_hierarchy _ _ s c hcs
  have hcases : s.hierarchy = [] ∨
      s ∈ goSections (pyStrip (removeSourceComments content))
        (headersOf (pyStrip (removeSourceComments content))) [] := by
    unfold buildSections at hsmem
    by_cases hempty :
        introSections (pyStrip (removeSourceComments content))
            (headersOf (pyStrip (removeSourceComments content))) ++
          goSections (pyStrip (removeSourceComments content))
            (headersOf (pyStrip (removeSourceComments content))) [] = []
    · rw [if_pos hempty] at hsmem
      have : s = ⟨none, pyStrip (removeSourceComments content), []⟩ := by
        simpa using hsmem
      left
      rw [this]
    · rw [if_neg hempty] at hsmem
      rcases List.mem_append.mp hsmem with hintro | hbody
      · left
        unfold introSections at hintro
        rcases hhs : headersOf (pyStrip (removeSourceComments content)) with _ | ⟨h, t⟩
        · rw [hhs] at hintro; cases hintro
        · rw [hhs] at hintro
          have hintro' : s ∈ (if pyStrip (String.mk
              ((pyStrip (removeSourceComments content)).data.take h.pos)) ≠ ""
              then [(⟨none, pyStrip (String.mk
                ((pyStrip (removeSourceComments content)).data.take h.pos)),
                []⟩ : SectionRec)]
              else []) := hintro
          by_cases hic : pyStrip (String.mk
              ((pyStrip (removeSourceComments content)).data.take h.pos)) ≠ ""
          · rw [if_pos hic] at hintro' 
            have : s = ⟨none, pyStrip (String.mk
                ((pyStrip (removeSourceComments content)).data.take h.pos)),
                []⟩ := by
              simpa using hintro'
            rw [this]
          · rw [if_neg hic] at hintro'
            cases hintro' 
      · right
        exact hbody
  rcases hcases with hz | hbody'
  · left
    rw [hhier, hz]
  · right
    have hbody'' : s ∈ goSections (pyStrip (removeSourceComments content))
        (headersOf (pyStrip (removeSourceComments content)))
        (([] : List HeaderM).map HeaderM.text) := hbody'
    rcases goSections_mem _ s _ [] hbody'' with ⟨i, hi, hh⟩
    have hilen : i < (headingLT content).length := by
      simpa [headingLT] using hi
    refine ⟨i, hilen, ?_⟩
    have hcur : parseHeaderLine
        ((headersOf (pyStrip (removeSourceComments content))).get ⟨i, hi⟩).text =
        some (((headersOf (pyStrip (removeSourceComments content))).get
            ⟨i, hi⟩).level,
          ((headersOf (pyStrip (removeSourceComments content))).get
            ⟨i, hi⟩).title) :=
      headersOf_parse _ _ (List.get_mem _ i hi)
    have hpre : ∀ h ∈ (headersOf (pyStrip (removeSourceComments content))).take i,
        parseHeaderLine h.text = some (h.level, h.title) := by
      intro h hh'
      exact headersOf_parse _ _ (List.take_subset i _ hh')
    rw [hhier, hh]
    rw [show (([] : List HeaderM) ++
        (headersOf (pyStrip (removeSourceComments content))).take i) =
      (headersOf (pyStrip (removeSourceComments content))).take i from
        List.nil_append _]
    rw [extract_hierarchy_eval _ _ hcur hpre]
    have hget : (headingLT content).get ⟨i, hilen⟩ =
        (((headersOf (pyStrip (removeSourceComments content))).get
          ⟨i, hi⟩).level,
         ((headersOf (pyStrip (removeSourceComments content))).get
          ⟨i, hi⟩).title) := by
      unfold headingLT
      rw [List.get_map]
    have htake : (headingLT content).take i =
        ((headersOf (pyStrip (removeSourceComments content))).take i).map
          (fun h => (h.level, h.title)) := by
      unfold headingLT
      rw [List.map_take]
    rw [hget, htake]

/-- C5 amended witness: the `### C` chunk of the counterexample document,
with `i = 2`. -/
theorem C5_hierarchy_all_preceding_smaller_witness :
    chunkHierarchy ⟨"### C\ny",
        mkChunkMeta none none (some "C") ["A", "B", "C"] false⟩ = [] ∨
      ∃ i, ∃ h : i < (headingLT c5Doc).length,
        chunkHierarchy ⟨"### C\ny",
            mkChunkMeta none none (some "C") ["A", "B", "C"] false⟩ =
          (((headingLT c5Doc).take i).filter
            (fun q => q.1 < ((headingLT c5Doc).get ⟨i, h⟩).1)).map Prod.snd
          ++ [((headingLT c5Doc).get ⟨i, h⟩).2] :=
  C5_hierarchy_all_preceding_smaller c5Doc
    ⟨"### C\ny", mkChunkMeta none none (some "C") ["A", "B", "C"] false⟩
    (by decide)

/-! ### Empty-file behaviour (claim C6) -/

/-- C6 counterexample: the chunker returns one chunk (with empty content) on
the empty file, not zero chunks. -/
theorem C6_empty_file_one_chunk_counterexample :
    chunkDoc "" ≠ [] ∧ (chunkDoc "").length = 1 :=
  ⟨by decide, by decide⟩

theorem matchSourceComment_none (c : Char) (rest : List Char) (hc : c ≠ '<') :
    matchSourceComment (c :: rest) = none := by
  unfold matchSourceComment
  rw [if_neg]
  intro hx
  rcases rest with _ | ⟨d, rest'⟩
  · simp [List.take] at hx
  · simp only [List.take, List.cons.injEq] at hx
    exact hc hx.1

theorem removeSCAux_no_lt (fuel : Nat) :
    ∀ l : List Char, (∀ c ∈ l, c ≠ '<') → removeSCAux fuel l = l := by
  induction fuel with
  | zero => intro l _; cases l <;> rfl
  | succ fuel ih =>
    intro l hl
    cases l with
    | nil => rfl
    | cons c rest =>
      unfold removeSCAux
      rw [matchSourceComment_none c rest (hl c (List.mem_cons_self _ _))]
      rw [ih rest (fun x hx => hl x (List.mem_cons_of_mem _ hx))]

theorem firstSC_no_lt (l : List Char) (hl : ∀ c ∈ l, c ≠ '<') :
    firstSC l = none := by
  induction l with
  | nil => rfl
  | cons c rest ih =>
    unfold firstSC
    rw [matchSourceComment_none c rest (hl c (List.mem_cons_self _ _))]
    exact ih (fun x hx => hl x (List.mem_cons_of_mem _ hx))

theorem pyStripList_all_ws (l : List Char) (hl : ∀ c ∈ l, isPyWs c) :
    pyStripList l = [] := by
  unfold pyStripList
  have h1 : l.dropWhile isPyWs = [] := List.dropWhile_eq_nil_iff.mpr hl
  rw [h1]
  rfl

theorem linesAux_chars (P : Char → Prop) :
    ∀ (l cur : List Char) (start : Nat), (∀ c ∈ cur, P c) → (∀ c ∈ l, P c) →
      ∀ p ∈ linesAux start cur l, ∀ c ∈ p.2.data, P c := by
  intro l
  induction l with
  | nil =>
    intro cur start hcur _ p hp c hc
    have : p = (start, String.mk cur.reverse) := by simpa [linesAux] using hp
    rw [this] at hc
    exact hcur c (by simpa using hc)
  | cons d rest ih =>
    intro cur start hcur hl p hp c hc
    have hd : P d := hl d (List.mem_cons_self _ _)
    have hrest : ∀ c ∈ rest, P c := fun x hx => hl x (List.mem_cons_of_mem _ hx)
    unfold linesAux at hp
    by_cases hdn : d = '\n'
    · rw [if_pos hdn] at hp
      rcases List.mem_cons.mp hp with hp | hp
      · rw [hp] at hc
        exact hcur c (by simpa using hc)
      · exact ih [] _ (by intro x hx; cases hx) hrest p hp c hc
    · rw [if_neg hdn] at hp
      refine ih (d :: cur) start ?_ hrest p hp c hc
      intro x hx
      rcases List.mem_cons.mp hx with hx | hx
      · exact hx ▸ hd
      · exact hcur x hx

theorem parseH1Line_no_hash (line : String) (h : ∀ c ∈ line.data, c ≠ '#') :
    parseH1Line line = none := by
  unfold parseH1Line
  have : line.data.takeWhile (fun c => c = '#') = [] := by
    cases hl : line.data with
    | nil => rfl
    | cons c rest =>
      rw [List.takeWhile_cons_of_neg]
      simp only [decide_eq_true_eq]
      exact h c (by rw [hl]; exact List.mem_cons_self _ _)
  rw [this]
  simp

theorem extract_page_title_ws (content : String)
    (hw : ∀ c ∈ content.data, isPyWs c) : extract_page_title content = none := by
  unfold extract_page_title
  have : (linesWithPos content).filterMap (fun p => parseH1Line p.2) = [] := by
    rw [List.filterMap_eq_nil_iff]
    intro p hp
    refine parseH1Line_no_hash p.2 ?_
    intro c hc
    have hPc : isPyWs c :=
      linesAux_chars (fun c => isPyWs c) content.data [] 0
        (by intro x hx; cases hx) hw p hp c hc
    intro heq
    rw [heq] at hPc
    simp [isPyWs] at hPc
  rw [this]
  rfl

/-- C6 amended: an empty or whitespace-only file yields exactly one chunk,
whose content is empty, with no source URL, no page title, no section, empty
hierarchy and no code flag. -/
theorem C6_whitespace_file_single_empty_chunk (content : String)
    (hw : ∀ c ∈ content.data, isPyWs c) :
    chunkDoc content = [⟨"", mkChunkMeta none none none [] false⟩] := by
  have hlt : ∀ c ∈ content.data, c ≠ '<' := by
    intro c hc heq
    have := hw c hc
    rw [heq] at this
    simp [isPyWs] at this
  have hrm : removeSourceComments content = content := by
    unfold removeSourceComments
    rw [removeSCAux_no_lt _ _ hlt]
  have hstrip : pyStrip (removeSourceComments content) = "" := by
    rw [hrm]
    unfold pyStrip
    rw [pyStripList_all_ws _ hw]
  have hsu : extract_source_url content = none := firstSC_no_lt _ hlt
  have hpt : extract_page_title content = none := extract_page_title_ws _ hw
  unfold chunkDoc
  rw [hsu, hpt, hstrip]
  rfl

/-- C6 amended witness: a whitespace-only file. -/
theorem C6_whitespace_file_single_empty_chunk_witness :
    chunkDoc " \t\n " = [⟨"", mkChunkMeta none none none [] false⟩] :=
  C6_whitespace_file_single_empty_chunk " \t\n " (by decide)

/-! ### Paragraph splitting versus fenced code blocks (claim C1) -/

theorem str_ext (a b : String) (h : a.data = b.data) : a = b := by
  cases a with
  | mk la => cases b with
    | mk lb => exact congrArg String.mk h

theorem splitParasAux_cons (cur : List Char) (c : Char) (l : List Char) :
    splitParasAux cur (c :: l) =
      if c = '\n' ∧ l.head? = some '\n' then
        cur.reverse :: splitParasAux [] ((l.drop 1).dropWhile (fun c => c = '\n'))
      else splitParasAux (c :: cur) l := by
  rw [splitParasAux]

theorem splitParasAux_sep (cur rest : List Char) :
    splitParasAux cur ('\n' :: '\n' :: rest) =
      cur.reverse :: splitParasAux [] (rest.dropWhile (fun c => c = '\n')) := by
  rw [splitParasAux_cons, if_pos ⟨rfl, rfl⟩]
  rfl

theorem splitParasAux_nil (cur : List Char) : splitParasAux cur [] = [cur.reverse] := by
  rw [splitParasAux]

theorem splitParasAux_noNL (l : List Char) (h : ∀ c ∈ l, c ≠ '\n') :
    ∀ (cur tail : List Char),
      splitParasAux cur (l ++ tail) = splitParasAux (l.reverse ++ cur) tail := by
  induction l with
  | nil => intro cur tail; simp
  | cons c rest ih =>
    intro cur tail
    rw [List.cons_append, splitParasAux_cons,
      if_neg (fun hx => h c (List.mem_cons_self _ _) hx.1),
      ih (fun x hx => h x (List.mem_cons_of_mem _ hx)) (c :: cur) tail,
      List.reverse_cons, List.append_assoc]
    rfl

theorem packParas_cons (m : Nat) (p : String) (rest cur : List String)
    (size : Nat) :
    packParas m (p :: rest) cur size =
      if cur ≠ [] ∧ size + p.length + 2 > m then
        joinNN cur :: packParas m rest [p] (p.length + 2)
      else packParas m rest (cur ++ [p]) (size + p.length + 2) := rfl

theorem packParas_nil (m : Nat) (cur : List String) (size : Nat) :
    packParas m [] cur size = if cur = [] then [] else [joinNN cur] := rfl

theorem scanCBF_nil (fuel pos : Nat) (b : Bool) : scanCBF fuel pos [] b = [] := by
  cases fuel <;> rfl

theorem scanCBF_succ_cons (fuel pos : Nat) (c : Char) (rest : List Char)
    (b : Bool) :
    scanCBF (fuel + 1) pos (c :: rest) b =
      if (c :: rest).take 3 = ['`', '`', '`'] then
        match findTriple ((c :: rest).drop 3) with
        | some i =>
          (pos, pos + (3 + i + 3))
            :: scanCBF fuel (pos + (3 + i + 3)) ((c :: rest).drop (3 + i + 3)) false
        | none =>
          match indentMatchAt (c :: rest) b with
          | some len =>
            (pos, pos + len) :: scanCBF fuel (pos + len) ((c :: rest).drop len) false
          | none => scanCBF fuel (pos + 1) rest false
      else
        match indentMatchAt (c :: rest) b with
        | some len =>
          (pos, pos + len) :: scanCBF fuel (pos + len) ((c :: rest).drop len) false
        | none => scanCBF fuel (pos + 1) rest false := rfl

theorem take3_ne (c : Char) (rest : List Char) (hc : c ≠ '`') :
    (c :: rest).take 3 ≠ ['`', '`', '`'] := by
  intro h
  simp at h
  exact hc h.1

theorem indentLineMatch_cons (c : Char) (rest : List Char) :
    indentLineMatch (c :: rest) =
      if c = '\t' then
        if 1 ≤ lineLen rest then some (1 + lineLen rest) else none
      else if 4 ≤ leadSpaces (c :: rest) ∧
          leadSpaces (c :: rest) + 1 ≤ lineLen (c :: rest) then
        some (lineLen (c :: rest))
      else if 5 ≤ leadSpaces (c :: rest) ∧
          leadSpaces (c :: rest) = lineLen (c :: rest) then
        some (lineLen (c :: rest))
      else none := rfl

theorem indentLineMatch_not_ws (c : Char) (rest : List Char) (h3 : c ≠ '\t')
    (h4 : c ≠ ' ') : indentLineMatch (c :: rest) = none := by
  have hls : leadSpaces (c :: rest) = 0 := by
    unfold leadSpaces
    rw [List.takeWhile_cons_of_neg (by simpa using h4)]
    rfl
  rw [indentLineMatch_cons, if_neg h3, hls, if_neg (by rintro ⟨h5, -⟩; omega),
    if_neg (by rintro ⟨h5, -⟩; omega)]

theorem indentBlockLen_none (l : List Char) (h : indentLineMatch l = none) :
    indentBlockLen l = none := by
  unfold indentBlockLen
  rw [h]

theorem indentMatchAt_false_not_nl (c : Char) (rest : List Char)
    (hcn : c ≠ '\n') : indentMatchAt (c :: rest) false = none := by
  show (if c = '\n' then (indentBlockLen rest).map (fun k => 1 + k) else none) = none
  rw [if_neg hcn]

theorem indentMatchAt_false_nl (rest : List Char) :
    indentMatchAt ('\n' :: rest) false =
      (indentBlockLen rest).map (fun k => 1 + k) := by
  show (if '\n' = '\n' then (indentBlockLen rest).map (fun k => 1 + k) else none) = _
  rw [if_pos rfl]

theorem indentMatchAt_true (l : List Char) :
    indentMatchAt l true = indentBlockLen l := rfl

theorem scanCBF_skip (fuel pos : Nat) (c : Char) (rest : List Char) (b : Bool)
    (h1 : c ≠ '`') (him : indentMatchAt (c :: rest) b = none) :
    scanCBF (fuel + 1) pos (c :: rest) b = scanCBF fuel (pos + 1) rest false := by
  rw [scanCBF_succ_cons, if_neg (take3_ne c rest h1), him]

theorem scanCBF_skip_run (c : Char) (h1 : c ≠ '`') (h2 : c ≠ '\n')
    (h3 : c ≠ '\t') (h4 : c ≠ ' ') :
    ∀ (n fuel pos : Nat) (rest : List Char) (b : Bool),
      scanCBF (n + fuel) pos (List.replicate n c ++ rest) b =
        scanCBF fuel (pos + n) rest (if n = 0 then b else false) := by
  intro n
  induction n with
  | zero => intro fuel pos rest b; simp
  | succ n ih =>
    intro fuel pos rest b
    have him : indentMatchAt (c :: (List.replicate n c ++ rest)) b = none := by
      cases b
      · exact indentMatchAt_false_not_nl c _ h2
      · rw [indentMatchAt_true]
        exact indentBlockLen_none _ (indentLineMatch_not_ws c _ h3 h4)
    rw [show (n + 1) + fuel = (n + fuel) + 1 from by omega,
      show List.replicate (n + 1) c ++ rest = c :: (List.replicate n c ++ rest) from by
        rw [List.replicate_succ]; rfl,
      scanCBF_skip _ _ _ _ _ h1 him, ih fuel (pos + 1) rest false,
      show pos + 1 + n = pos + (n + 1) from by omega]
    simp

theorem findTriple_cons (c : Char) (l : List Char) :
    findTriple (c :: l) =
      if (c :: l).take 3 = ['`', '`', '`'] then some 0
      else (findTriple l).map (fun n => n + 1) := rfl

theorem findTriple_cons_ne (c : Char) (l : List Char) (hc : c ≠ '`') :
    findTriple (c :: l) = (findTriple l).map (fun n => n + 1) := by
  rw [findTriple_cons, if_neg (take3_ne c l hc)]

theorem findTriple_no_bt (l : List Char) (h : ∀ c ∈ l, c ≠ '`') :
    ∀ m : List Char, findTriple (l ++ m) = (findTriple m).map (fun n => n + l.length) := by
  induction l with
  | nil =>
    intro m
    rw [List.nil_append]
    cases hm : findTriple m <;> simp
  | cons c rest ih =>
    intro m
    rw [List.cons_append,
      findTriple_cons_ne c _ (h c (List.mem_cons_self _ _)),
      ih (fun x hx => h x (List.mem_cons_of_mem _ hx)) m]
    cases hm : findTriple m with
    | none => rfl
    | some k =>
      show some (k + rest.length + 1) = some (k + (c :: rest).length)
      rw [List.length_cons, Nat.add_assoc]

theorem findTriple_bt (t : List Char) : findTriple ('`' :: '`' :: '`' :: t) = some 0 := by
  rw [findTriple_cons]
  exact if_pos rfl

theorem not_containsWhole_of_short (chunk : String) (block : List Char)
    (h : chunk.data.length < block.length) : ¬ containsWhole chunk block := by
  rintro ⟨pre, post, heq⟩
  have := congrArg List.length heq
  simp only [List.length_append] at this
  omega

/-- C1: the paragraph splitter ignores the code-block ranges it computes.
On the 2104-character section `c1T` (whose single fenced block contains a
blank line) it cuts between the two chunk rows **inside** the fenced block:
the block, reported by `_find_code_block_ranges` itself as the range
`[102, 2104)` — the text `c1F1 ++ "\n\n" ++ c1F2` — fits inside neither of
the two emitted chunks.  The spec mandates that a fenced block stay whole
inside one chunk, so this is a code bug (the source even computes
`code_ranges` in `_split_on_paragraphs` and then never uses it). -/
theorem C1_paragraph_split_breaks_fenced_block :
    2000 < c1T.length ∧
      find_code_block_ranges c1T = [(102, 2104)] ∧
      (c1T.data.drop 102).take 2002 = (c1F1 ++ "\n\n" ++ c1F2).data ∧
      split_on_paragraphs c1T TARGET_MAX_CHARS = [c1P ++ "\n\n" ++ c1F1, c1F2] ∧
      ¬ containsWhole (c1P ++ "\n\n" ++ c1F1) (c1F1 ++ "\n\n" ++ c1F2).data ∧
      ¬ containsWhole c1F2 (c1F1 ++ "\n\n" ++ c1F2).data := by
  -- abbreviations for the three character blocks
  have hdP : c1P.data = List.replicate 100 'p' := rfl
  have hdF1 : c1F1.data = '`' :: '`' :: '`' :: List.replicate 1797 'x' := rfl
  have hdF2 : c1F2.data = List.replicate 197 'y' ++ ['`', '`', '`'] := rfl
  have hdata : c1T.data =
      List.replicate 100 'p' ++ ('\n' :: '\n' ::
        (('`' :: '`' :: '`' :: List.replicate 1797 'x') ++ ('\n' :: '\n' ::
          (List.replicate 197 'y' ++ ['`', '`', '`'])))) := by
    show ((((c1P ++ "\n\n") ++ c1F1) ++ "\n\n") ++ c1F2).data = _
    rw [String.data_append, String.data_append, String.data_append,
      String.data_append, hdP, hdF1, hdF2,
      show ("\n\n" : String).data = ['\n', '\n'] from rfl]
    simp only [List.append_assoc, List.cons_append, List.nil_append]
  have hlenData : c1T.data.length = 2104 := by
    rw [hdata]
    simp only [List.length_append, List.length_cons, List.length_nil,
      List.length_replicate]
  have hlenT : c1T.length = 2104 := hlenData
  have hlP : c1P.length = 100 := by
    show (List.replicate 100 'p').length = 100
    simp
  have hlF1 : c1F1.length = 1800 := by
    show ("```" ++ String.mk (List.replicate 1797 'x')).length = 1800
    rw [String.length_append,
      show ("```" : String).length = 3 from rfl,
      show (String.mk (List.replicate 1797 'x')).length =
        (List.replicate 1797 'x').length from rfl,
      List.length_replicate]
  have hlF2 : c1F2.length = 200 := by
    show (String.mk (List.replicate 197 'y') ++ "```").length = 200
    rw [String.length_append,
      show ("```" : String).length = 3 from rfl,
      show (String.mk (List.replicate 197 'y')).length =
        (List.replicate 197 'y').length from rfl,
      List.length_replicate]
  have hBdata : (c1F1 ++ "\n\n" ++ c1F2).data =
      ('`' :: '`' :: '`' :: List.replicate 1797 'x') ++ ('\n' :: '\n' ::
        (List.replicate 197 'y' ++ ['`', '`', '`'])) := by
    show ((c1F1 ++ "\n\n") ++ c1F2).data = _
    rw [String.data_append, String.data_append, hdF1, hdF2,
      show ("\n\n" : String).data = ['\n', '\n'] from rfl]
    simp only [List.append_assoc, List.cons_append, List.nil_append]
  have hlB : (c1F1 ++ "\n\n" ++ c1F2).data.length = 2002 := by
    rw [hBdata]
    simp only [List.length_append, List.length_cons, List.length_nil,
      List.length_replicate]
  -- the fenced-block scan
  have hxne : ∀ x ∈ List.replicate 1797 'x', x ≠ '`' := by
    intro x hx
    rw [List.eq_of_mem_replicate hx]
    decide
  have hyne : ∀ y ∈ List.replicate 197 'y', y ≠ '`' := by
    intro y hy
    rw [List.eq_of_mem_replicate hy]
    decide
  have hft : findTriple (List.replicate 1797 'x' ++ ('\n' :: '\n' ::
      (List.replicate 197 'y' ++ ['`', '`', '`']))) = some 1996 := by
    rw [findTriple_no_bt _ hxne,
      findTriple_cons_ne '\n' _ (by decide), findTriple_cons_ne '\n' _ (by decide),
      findTriple_no_bt _ hyne, findTriple_bt]
    simp only [Option.map_some', List.length_replicate]
  have hfen : scanCBF 2002 102
      (('`' :: '`' :: '`' :: List.replicate 1797 'x') ++ ('\n' :: '\n' ::
        (List.replicate 197 'y' ++ ['`', '`', '`']))) false = [(102, 2104)] := by
    have htake : List.take 3 ('`' :: '`' :: '`' :: (List.replicate 1797 'x' ++
        ('\n' :: '\n' :: (List.replicate 197 'y' ++ ['`', '`', '`'])))) =
        ['`', '`', '`'] := rfl
    rw [show (2002 : Nat) = 2001 + 1 from by norm_num,
      show (('`' :: '`' :: '`' :: List.replicate 1797 'x') ++ ('\n' :: '\n' ::
          (List.replicate 197 'y' ++ ['`', '`', '`']))) =
        '`' :: '`' :: '`' :: (List.replicate 1797 'x' ++ ('\n' :: '\n' ::
          (List.replicate 197 'y' ++ ['`', '`', '`']))) from rfl,
      scanCBF_succ_cons, if_pos htake]
    rw [show ('`' :: '`' :: '`' :: (List.replicate 1797 'x' ++ ('\n' :: '\n' ::
        (List.replicate 197 'y' ++ ['`', '`', '`'])))).drop 3 =
      List.replicate 1797 'x' ++ ('\n' :: '\n' ::
        (List.replicate 197 'y' ++ ['`', '`', '`'])) from rfl, hft]
    show ((102, 102 + (3 + 1996 + 3)) :: scanCBF 2001 (102 + (3 + 1996 + 3))
        (('`' :: '`' :: '`' :: (List.replicate 1797 'x' ++ ('\n' :: '\n' ::
          (List.replicate 197 'y' ++ ['`', '`', '`'])))).drop (3 + 1996 + 3))
        false) = [(102, 2104)]
    have hdrop : ('`' :: '`' :: '`' :: (List.replicate 1797 'x' ++ ('\n' :: '\n' ::
        (List.replicate 197 'y' ++ ['`', '`', '`'])))).drop (3 + 1996 + 3) = [] := by
      refine List.drop_eq_nil_of_le ?_
      simp only [List.length_cons, List.length_append, List.length_replicate,
        List.length_nil]
      omega
    rw [hdrop, scanCBF_nil]
  have hlm1 : indentLineMatch (('`' :: '`' :: '`' :: List.replicate 1797 'x') ++
      ('\n' :: '\n' :: (List.replicate 197 'y' ++ ['`', '`', '`']))) = none :=
    indentLineMatch_not_ws '`' _ (by decide) (by decide)
  have hlm0 : indentLineMatch ('\n' :: (('`' :: '`' :: '`' ::
      List.replicate 1797 'x') ++ ('\n' :: '\n' ::
      (List.replicate 197 'y' ++ ['`', '`', '`'])))) = none :=
    indentLineMatch_not_ws '\n' _ (by decide) (by decide)
  have hi1 : indentMatchAt ('\n' :: (('`' :: '`' :: '`' :: List.replicate 1797 'x') ++
      ('\n' :: '\n' :: (List.replicate 197 'y' ++ ['`', '`', '`'])))) false = none := by
    rw [indentMatchAt_false_nl, indentBlockLen_none _ hlm1]
    rfl
  have hi0 : indentMatchAt ('\n' :: '\n' :: (('`' :: '`' :: '`' ::
      List.replicate 1797 'x') ++ ('\n' :: '\n' ::
      (List.replicate 197 'y' ++ ['`', '`', '`'])))) false = none := by
    rw [indentMatchAt_false_nl, indentBlockLen_none _ hlm0]
    rfl
  have hranges : find_code_block_ranges c1T = [(102, 2104)] := by
    unfold find_code_block_ranges
    rw [hlenData, hdata]
    rw [show (2104 : Nat) = 100 + 2004 from by norm_num,
      scanCBF_skip_run 'p' (by decide) (by decide) (by decide) (by decide)
        100 2004 0 _ true]
    rw [if_neg (by norm_num)]
    rw [show (0 : Nat) + 100 = 100 from by norm_num]
    rw [show (2004 : Nat) = 2003 + 1 from by norm_num,
      scanCBF_skip _ _ _ _ _ (by decide) hi0]
    rw [show (2003 : Nat) = 2002 + 1 from by norm_num,
      scanCBF_skip _ _ _ _ _ (by decide) hi1]
    rw [show (100 : Nat) + 1 + 1 = 102 from by norm_num]
    exact hfen
  -- the paragraph split
  have hPd : ∀ c ∈ List.replicate 100 'p', c ≠ '\n' := by
    intro c hc
    rw [List.eq_of_mem_replicate hc]
    decide
  have hF1nn : ∀ c ∈ ('`' :: '`' :: '`' :: List.replicate 1797 'x'), c ≠ '\n' := by
    intro c hc
    simp only [List.mem_cons, List.mem_replicate] at hc
    rcases hc with rfl | rfl | rfl | ⟨-, rfl⟩ <;> decide
  have hF2nn : ∀ c ∈ (List.replicate 197 'y' ++ ['`', '`', '`']), c ≠ '\n' := by
    intro c hc
    simp only [List.mem_append, List.mem_replicate, List.mem_cons,
      List.not_mem_nil, or_false] at hc
    rcases hc with ⟨-, rfl⟩ | rfl | rfl | rfl <;> decide
  have hdw1 : (('`' :: '`' :: '`' :: List.replicate 1797 'x') ++ ('\n' :: '\n' ::
      (List.replicate 197 'y' ++ ['`', '`', '`']))).dropWhile (fun c => c = '\n') =
      ('`' :: '`' :: '`' :: List.replicate 1797 'x') ++ ('\n' :: '\n' ::
      (List.replicate 197 'y' ++ ['`', '`', '`'])) := by
    show ('`' :: ('`' :: '`' :: List.replicate 1797 'x' ++ ('\n' :: '\n' ::
      (List.replicate 197 'y' ++ ['`', '`', '`'])))).dropWhile (fun c => c = '\n') = _
    rw [List.dropWhile_cons, if_neg (by decide)]
    rfl
  have hdw2 : (List.replicate 197 'y' ++ ['`', '`', '`']).dropWhile
      (fun c => c = '\n') = List.replicate 197 'y' ++ ['`', '`', '`'] := by
    show ('y' :: (List.replicate 196 'y' ++ ['`', '`', '`'])).dropWhile
      (fun c => c = '\n') = _
    rw [List.dropWhile_cons, if_neg (by decide)]
    rfl
  have hParas : splitParas c1T = [c1P, c1F1, c1F2] := by
    unfold splitParas
    rw [hdata, splitParasAux_noNL _ hPd [] _, splitParasAux_sep, hdw1,
      splitParasAux_noNL _ hF1nn [] _, splitParasAux_sep, hdw2,
      show (List.replicate 197 'y' ++ ['`', '`', '`'] : List Char) =
        (List.replicate 197 'y' ++ ['`', '`', '`']) ++ [] from
        (List.append_nil _).symm,
      splitParasAux_noNL _ hF2nn [] [], splitParasAux_nil]
    simp only [List.append_nil, List.reverse_reverse, List.map_cons, List.map_nil]
    rfl
  have hsplit : split_on_paragraphs c1T TARGET_MAX_CHARS =
      [c1P ++ "\n\n" ++ c1F1, c1F2] := by
    unfold split_on_paragraphs
    rw [if_neg (by rw [hlenT]; decide)]
    show packParas TARGET_MAX_CHARS (splitParas c1T) [] 0 = _
    rw [hParas, packParas_cons, if_neg (by simp),
      show ([] : List String) ++ [c1P] = [c1P] from rfl,
      packParas_cons, hlP, hlF1, if_neg (by decide),
      show ([c1P] : List String) ++ [c1F1] = [c1P, c1F1] from rfl,
      packParas_cons, hlF2, if_pos (by refine ⟨by simp, by decide⟩),
      packParas_nil, if_neg (by simp)]
    rfl
  -- the block slice and the length obstruction
  have hshape : c1T.data = (List.replicate 100 'p' ++ ['\n', '\n']) ++
      (('`' :: '`' :: '`' :: List.replicate 1797 'x') ++ ('\n' :: '\n' ::
        (List.replicate 197 'y' ++ ['`', '`', '`']))) := by
    rw [hdata, List.append_assoc]
    rfl
  have hslice : (c1T.data.drop 102).take 2002 = (c1F1 ++ "\n\n" ++ c1F2).data := by
    rw [hshape,
      show (102 : Nat) =
        (List.replicate 100 'p' ++ ['\n', '\n'] : List Char).length from by simp,
      List.drop_left, ← hBdata,
      show (2002 : Nat) = (c1F1 ++ "\n\n" ++ c1F2).data.length from hlB.symm,
      List.take_length]
  have hq1 : (c1P ++ "\n\n" ++ c1F1).data.length <
      (c1F1 ++ "\n\n" ++ c1F2).data.length := by
    rw [hlB]
    show (c1P ++ "\n\n" ++ c1F1).length < 2002
    rw [String.length_append, String.length_append, hlP, hlF1,
      show ("\n\n" : String).length = 2 from rfl]
    norm_num
  have hq2 : c1F2.data.length < (c1F1 ++ "\n\n" ++ c1F2).data.length := by
    rw [hlB]
    show c1F2.length < 2002
    rw [hlF2]
    norm_num
  exact ⟨by omega, hranges, hslice, hsplit,
    not_containsWhole_of_short _ _ hq1, not_containsWhole_of_short _ _ hq2⟩

end Chunker

end DocMCP
